import Mathlib

/-!
# Function: the expression-evaluation object of `builtins/Function.cpp`

A shallow embedding of the class `Function`: its variable store (`xs_`, `ys_`,
`varIndex_`), the operations that grow it, the push port `setVar`, the configuration step
`setExpr`, the two scheduler entry points `process` and `reinit`, the configuration fields
and the assignment `operator=`. The last part embeds the table `dependency` of
`biophysics/HHChannel2D.cpp` and the three members that read it.

Conventions of the embedding.

* A C `double` is a rational number. The operations studied here store, move and compare
  values; the only arithmetic is the finite difference in `process`.
* An `unsigned int` is a natural number; the counter of the loop in `addXByIndex` is taken
  not to wrap, which is the case for every index below `UINT_MAX`.
* A `shared_ptr<double>` of `ys_` is an `Option`: `none` is the null pointer that
  `vector::resize` creates.
* `std::map<string, unsigned int>` is an association list with unique keys, kept in
  insertion order.
* The expression parser (`MooseParser`) is an external collaborator. Its symbol table is
  modelled; its evaluator and differentiator are parameters (`ParserOps`), and so are its
  compiler and its scan of a text for names (`CompilerOps`).
* An exception that a member function lets escape is an `Except.error`; the state the
  member had reached is then dropped. The calls of `std::stoul` can throw, and nothing in
  `Function.cpp` catches what they throw.
* An `unsigned long` has 64 bits (`ULONG_MAX`); the result of `std::stoul` is reduced
  modulo `UINT_MAX + 1` where it is passed to an `unsigned int` parameter.
* An `assert` that fails ends the run: the member returns `none`.
* What an entry point asks of its collaborators (the pull request, the parser calls, the
  values sent on the output ports) is returned as a list of `Call`, in the order of the
  calls.
-/

namespace Moose

/-! ## Data model -/

/-- The constant `TriggerThreshold` of `Function.cpp`. -/
def TriggerThreshold : ℚ := 0

/-- The value `numeric_limits<unsigned int>::max()`. -/
def UINT_MAX : Nat := 4294967295

/-- Modelled from the spec: the class `Variable` (header `Variable.h`), a named storage
cell holding the value pushed last, created with the default value 0.0. -/
structure Variable where
  name : String
  value : ℚ
  deriving DecidableEq, Repr

/-- The constructor `Variable(name)`. -/
def Variable.new (name : String) : Variable := { name := name, value := 0 }

/-- The member `Variable::setValue`. -/
def Variable.setValue (v : Variable) (value : ℚ) : Variable := { v with value := value }

/-- The storage cell a parser symbol is linked to: `xs_[i]->ref()`, `ys_[i].get()` or
`&t_`. -/
inductive CellRef where
  | x (i : Nat)
  | y (i : Nat)
  | t
  deriving DecidableEq, Repr

/-- Lookup in a `std::map` (`find`): the value stored under a key. -/
def mapFind {β : Type} : List (String × β) → String → Option β
  | [], _ => none
  | (k, v) :: m, key => if k = key then some v else mapFind m key

/-- Assignment in a `std::map` (`m[key] = v`): replaces the value of an existing key, adds
the key otherwise. -/
def mapSet {β : Type} : List (String × β) → String → β → List (String × β)
  | [], key, v => [(key, v)]
  | (k, w) :: m, key, v => if k = key then (k, v) :: m else (k, w) :: mapSet m key v

/-- The symbol table of `MooseParser`: the expression text, the variables linked to
storage cells and the constants. -/
structure MooseParser where
  expr_ : String
  vars_ : List (String × CellRef)
  consts_ : List (String × ℚ)
  deriving DecidableEq, Repr

/-- A parser as the constructor of `MooseParser` leaves it. -/
def MooseParser.new : MooseParser := { expr_ := "", vars_ := [], consts_ := [] }

/-- Modelled from the spec: `MooseParser::DefineVar` (`bindVariable`), which associates a
name with a storage cell; binding a name again to the same cell changes nothing. -/
def MooseParser.DefineVar (p : MooseParser) (name : String) (c : CellRef) : MooseParser :=
  { p with vars_ := mapSet p.vars_ name c }

/-- Modelled from the spec: `MooseParser::GetExpr` (`getCompiledText`). -/
def MooseParser.GetExpr (p : MooseParser) : String := p.expr_

/-- The data members of `Function` (the solver back-reference `stoich_` apart). -/
structure Function where
  valid_ : Bool
  numVar_ : Nat
  lastValue_ : ℚ
  value_ : ℚ
  rate_ : ℚ
  mode_ : Nat
  useTrigger_ : Bool
  doEvalAtReinit_ : Bool
  allowUnknownVar_ : Bool
  t_ : ℚ
  independent_ : String
  xs_ : List Variable
  ys_ : List (Option ℚ)
  varIndex_ : List (String × Nat)
  parser_ : MooseParser
  deriving DecidableEq, Repr

/-- The constructor `Function::Function()`. -/
def Function.new : Function :=
  { valid_ := true, numVar_ := 0, lastValue_ := 0, value_ := 0, rate_ := 0, mode_ := 1,
    useTrigger_ := false, doEvalAtReinit_ := false, allowUnknownVar_ := true, t_ := 0,
    independent_ := "t", xs_ := [], ys_ := [], varIndex_ := [], parser_ := MooseParser.new }

/-- A call an entry point makes on its collaborators: the pull request `requestOut`, the
parser calls `Eval` and `Derivative`, and a value sent on one of the three output ports. -/
inductive Call where
  | requestOut
  | eval
  | derivative (name : String)
  | valueOut (v : ℚ)
  | derivativeOut (v : ℚ)
  | rateOut (v : ℚ)
  deriving DecidableEq, Repr

/-- The evaluator of the external parser: `eval` computes the compiled expression and
`derivative` its derivative with respect to a named variable, both from the expression
text and the current value of every linked symbol. -/
structure ParserOps where
  eval : String → (String → Option ℚ) → ℚ
  derivative : String → (String → Option ℚ) → String → ℚ

/-! ## Variable store -/

/-- The member `Function::getVarIndex`. -/
def Function.getVarIndex (f : Function) (name : String) : Nat :=
  match mapFind f.varIndex_ name with
  | none => UINT_MAX
  | some i => i

/-- The member `Function::symbolExists`. -/
def Function.symbolExists (f : Function) (name : String) : Bool :=
  (mapFind f.varIndex_ name).isSome

/-- The member `Function::getNumVar`. -/
def Function.getNumVar (f : Function) : Nat := f.numVar_

/-- The name `'x'+to_string(index)`. -/
def xName (index : Nat) : String := "x" ++ toString index

/-- The name `'y'+to_string(index)`. -/
def yName (index : Nat) : String := "y" ++ toString index

/-- The loop `for(i = xs_.size(); i <= index; i++)` of `addXByIndex`, with the number of
iterations still allowed as first argument: each turn appends the slot `x{i}` and assigns
`varIndex_[name] = xs_.size()-1`, where `name` is the name of the slot asked for. -/
def Function.addXByIndexLoop (name : String) (index : Nat) : Nat → Nat → Function → Function
  | 0, _, f => f
  | fuel + 1, i, f =>
    if i ≤ index then
      let xs := f.xs_ ++ [Variable.new (xName i)]
      Function.addXByIndexLoop name index fuel (i + 1)
        { f with xs_ := xs, varIndex_ := mapSet f.varIndex_ name (xs.length - 1) }
    else f

/-- The member `Function::addXByIndex`. The loop runs `index + 1 - xs_.size()` times. -/
def Function.addXByIndex (f : Function) (index : Nat) : Function :=
  let name := xName index
  if f.symbolExists name then f
  else
    let f1 :=
      if index ≥ f.xs_.length then
        Function.addXByIndexLoop name index (index + 1 - f.xs_.length) f.xs_.length f
      else f
    let f2 := { f1 with parser_ := f1.parser_.DefineVar name (CellRef.x index) }
    let f3 := { f2 with varIndex_ := mapSet f2.varIndex_ name (f2.xs_.length - 1) }
    { f3 with numVar_ := f3.varIndex_.length }

/-- The member `Function::addXByName`. -/
def Function.addXByName (f : Function) (name : String) : Function :=
  if f.symbolExists name then f
  else
    let f1 := { f with xs_ := f.xs_ ++ [Variable.new name] }
    let f2 := { f1 with parser_ := f1.parser_.DefineVar name (CellRef.x (f1.xs_.length - 1)) }
    let f3 := { f2 with varIndex_ := mapSet f2.varIndex_ name (f2.xs_.length - 1) }
    { f3 with numVar_ := f3.varIndex_.length }

/-- The call `ys_.resize(n)` for `n` above the size: null pointers are appended. -/
def resizeYs (ys : List (Option ℚ)) (n : Nat) : List (Option ℚ) :=
  ys ++ List.replicate (n - ys.length) none

/-- The member `Function::addY`. -/
def Function.addY (f : Function) (index : Nat) : Function :=
  let name := yName index
  let f1 := if index ≥ f.ys_.length then { f with ys_ := resizeYs f.ys_ (index + 1) } else f
  let f2 := { f1 with ys_ := f1.ys_.set index (some 0) }
  { f2 with parser_ := f2.parser_.DefineVar name (CellRef.y index) }

/-- The member `Function::callbackAddSymbol`. -/
def Function.callbackAddSymbol (f : Function) (name : String) : Function :=
  if (mapFind f.varIndex_ name).isNone then f.addXByName name else f

/-- The member `Function::setVar`: the push port of an input slot. -/
def Function.setVar (f : Function) (index : Nat) (value : ℚ) : Function :=
  if index < f.xs_.length then
    { f with xs_ := f.xs_.modify (fun v => v.setValue value) index }
  else f

/-! ## Evaluation -/

/-- The value held now by the storage cell a symbol is linked to. -/
def Function.deref (f : Function) : CellRef → Option ℚ
  | CellRef.x i => (f.xs_[i]?).map Variable.value
  | CellRef.y i => (f.ys_[i]?).join
  | CellRef.t => some f.t_

/-- The value of a symbol as the parser sees it: the cell of a linked variable, or the
constant of that name. -/
def Function.env (f : Function) (name : String) : Option ℚ :=
  match mapFind f.parser_.vars_ name with
  | some c => f.deref c
  | none => mapFind f.parser_.consts_ name

/-- The member `Function::getEval`: `parser_->Eval()`. -/
def Function.getEval (P : ParserOps) (f : Function) : ℚ :=
  P.eval f.parser_.GetExpr f.env

/-- The member `Function::getDerivative`. -/
def Function.getDerivative (P : ParserOps) (f : Function) : ℚ :=
  if !f.valid_ then 0 else P.derivative f.parser_.GetExpr f.env f.independent_

/-- The calls `getDerivative` makes on the parser. -/
def Function.getDerivativeCalls (f : Function) : List Call :=
  if !f.valid_ then [] else [Call.derivative f.independent_]

/-- The loop `for (ii = 0; ii < databuf.size() && ii < ys_.size(); ++ii) *ys_[ii] =
databuf[ii]` of `process`; `none` when it writes through a null pointer. -/
def copyPulled : List (Option ℚ) → List ℚ → Option (List (Option ℚ))
  | [], _ => some []
  | y :: ys, [] => some (y :: ys)
  | none :: _, _ :: _ => none
  | some _ :: ys, d :: ds => (copyPulled ys ds).map (fun r => some d :: r)

/-- The `switch (mode_)` of `process`, after the state `f` is final but for `lastValue_`:
the calls made and the new state. -/
def Function.processRoute (P : ParserOps) (f : Function) : Function × List Call :=
  match f.mode_ with
  | 1 => ({ f with lastValue_ := f.value_ }, [Call.valueOut f.value_])
  | 2 => ({ f with lastValue_ := f.value_ },
      f.getDerivativeCalls ++ [Call.derivativeOut (f.getDerivative P)])
  | 3 => ({ f with lastValue_ := f.value_ }, [Call.rateOut f.rate_])
  | _ => ({ f with lastValue_ := f.value_ },
      [Call.valueOut f.value_] ++ f.getDerivativeCalls ++
        [Call.derivativeOut (f.getDerivative P), Call.rateOut f.rate_])

/-- The member `Function::process` at time `currTime` with step `dt`, where `databuf` is
what the pull request `requestOut` collects. `none` when the copy loop writes through a
null pointer. -/
def Function.process (P : ParserOps) (f : Function) (currTime dt : ℚ) (databuf : List ℚ) :
    Option (Function × List Call) :=
  if !f.valid_ then some (f, [])
  else
    let f1 := { f with t_ := currTime }
    let f2 := { f1 with value_ := f1.getEval P }
    let f3 := { f2 with rate_ := (f2.value_ - f2.lastValue_) / dt }
    match copyPulled f3.ys_ databuf with
    | none => none
    | some ys =>
      let f4 := { f3 with ys_ := ys }
      if f4.useTrigger_ && decide (f4.value_ < TriggerThreshold) then
        some ({ f4 with lastValue_ := f4.value_ }, [Call.requestOut, Call.eval])
      else
        let r := f4.processRoute P
        some (r.1, [Call.requestOut, Call.eval] ++ r.2)

/-- The `switch (mode_)` of `reinit`: the calls made. -/
def Function.reinitRoute (f : Function) : List Call :=
  match f.mode_ with
  | 1 => [Call.valueOut f.value_]
  | 2 => [Call.derivativeOut 0]
  | 3 => [Call.rateOut f.rate_]
  | _ => [Call.valueOut f.value_, Call.derivativeOut 0, Call.rateOut f.rate_]

/-- The member `Function::reinit` at time `currTime`. -/
def Function.reinit (P : ParserOps) (f : Function) (currTime : ℚ) : Function × List Call :=
  if !(f.valid_ || f.parser_.GetExpr.isEmpty) then (f, [])
  else
    let f1 := { f with t_ := currTime }
    let f2 :=
      if f1.doEvalAtReinit_ then { f1 with value_ := f1.getEval P, lastValue_ := f1.getEval P }
      else { f1 with value_ := 0, lastValue_ := 0 }
    let calls := if f1.doEvalAtReinit_ then [Call.eval] else []
    let f3 := { f2 with rate_ := 0 }
    (f3, calls ++ f3.reinitRoute)

/-- Whether a call is a value sent on one of the output ports `valueOut`,
`derivativeOut`, `rateOut`. -/
def Call.isOutput : Call → Bool
  | Call.valueOut _ => true
  | Call.derivativeOut _ => true
  | Call.rateOut _ => true
  | _ => false

/-! ## Setting the expression -/

/-- The kinds of symbol `getVarType` tells apart (the `enum VarType` of `Function.h`). -/
inductive VarType where
  | XVAR_INDEX
  | XVAR_NAMED
  | YVAR
  | TVAR
  | CONSTVAR
  deriving DecidableEq, Repr

/-- The test `regex_match(name, regex("c\\d+"))` for a letter `c`: the name is that
letter followed by one decimal digit or more. -/
def matchesIndexed (c : Char) (name : String) : Bool :=
  match name.data with
  | h :: d :: ds => h == c && (d :: ds).all Char.isDigit
  | _ => false

/-- The number a list of decimal digits spells. -/
def decodeDigits (l : List Char) : Nat :=
  l.foldl (fun a c => 10 * a + (c.toNat - 48)) 0

/-- The value `numeric_limits<unsigned long>::max()`, for an `unsigned long` of 64 bits. -/
def ULONG_MAX : Nat := 18446744073709551615

/-- The test `isspace` of the C locale: the blank and the characters 9 to 13. -/
def isSpaceChar (c : Char) : Bool := c.toNat == 32 || (9 ≤ c.toNat && c.toNat ≤ 13)

/-- The call `std::stoul(s)`, which is `strtoul` in base 10: leading white space is
skipped, one sign is read if there is one, then the decimal digits. An error is the
`std::invalid_argument` thrown when no digit is found, or the `std::out_of_range` thrown
when the number is above `ULONG_MAX`. After a minus sign the number is negated as an
`unsigned long`. -/
def stoul (s : String) : Except String Nat :=
  let cs := s.data.dropWhile isSpaceChar
  let signed := cs.head? == some '-' || cs.head? == some '+'
  let ds := (if signed then cs.drop 1 else cs).takeWhile Char.isDigit
  if ds.isEmpty then Except.error "invalid_argument: stoul"
  else if decodeDigits ds > ULONG_MAX then Except.error "out_of_range: stoul"
  else if cs.head? == some '-' then
    Except.ok ((ULONG_MAX + 1 - decodeDigits ds) % (ULONG_MAX + 1))
  else Except.ok (decodeDigits ds)

/-- The argument `std::stoul(name.substr(1))` as `addXByIndex` and `addY` receive it: the
`unsigned long` is converted to their `unsigned int` parameter, that is reduced modulo
`UINT_MAX + 1`. An error is an exception of `stoul`, or the `std::out_of_range` that
`substr(1)` throws on an empty name. -/
def stoulIndex (name : String) : Except String Nat :=
  if name.data.isEmpty then Except.error "out_of_range: basic_string::substr"
  else
    match stoul (String.mk (name.data.drop 1)) with
    | Except.error e => Except.error e
    | Except.ok v => Except.ok (v % (UINT_MAX + 1))

/-- Modelled from the spec: `MooseParser::IsConst`, whether the name is registered in the
constant table of the parser. -/
def MooseParser.IsConst (p : MooseParser) (name : String) : Bool :=
  (mapFind p.consts_ name).isSome

/-- The member `Function::getVarType`. -/
def Function.getVarType (f : Function) (name : String) : VarType :=
  if matchesIndexed 'x' name then VarType.XVAR_INDEX
  else if matchesIndexed 'y' name then VarType.YVAR
  else if matchesIndexed 'c' name then VarType.CONSTVAR
  else if f.allowUnknownVar_ && f.parser_.IsConst name then VarType.CONSTVAR
  else if name = "t" then VarType.TVAR
  else VarType.XVAR_NAMED

/-- The member `Function::addVariable`; an error is an exception of
`stoul(name.substr(1))`, which the member lets escape, or the `runtime_error` it throws. -/
def Function.addVariable (f : Function) (name : String) : Except String Function :=
  let vtype := f.getVarType name
  if vtype = VarType.XVAR_INDEX then
    match stoulIndex name with
    | Except.error e => Except.error e
    | Except.ok index => Except.ok (f.addXByIndex index)
  else if vtype = VarType.XVAR_NAMED then Except.ok (f.addXByName name)
  else if vtype = VarType.YVAR then
    match stoulIndex name with
    | Except.error e => Except.error e
    | Except.ok index => Except.ok (f.addY index)
  else if vtype = VarType.TVAR then
    Except.ok { f with parser_ := f.parser_.DefineVar "t" CellRef.t }
  else if vtype = VarType.CONSTVAR then Except.ok f
  else Except.error (name ++ " is not supported or invalid name.")

/-- How a compile call of the parser ends: it returns true, it returns false, or it throws
a `ParserException`. -/
inductive CompileResult where
  | ok
  | failed
  | thrown
  deriving DecidableEq, Repr

/-- What `setExpr` asks of code that is not in `Function.cpp`: `trim` is `moose::trim`;
`findXsYs` is `MooseParser::findXsYs`, the names `x<n>` and the names `y<n>` of a text,
each set in its order of iteration; `symbols` lists the symbols the parser reads in a text,
in the order of reading; `compile` is the outcome of compiling a text against a table of
linked variables and a table of constants. -/
structure CompilerOps where
  trim : String → String
  findXsYs : String → List String × List String
  symbols : String → List String
  compile : List (String × CellRef) → List (String × ℚ) → String → CompileResult

/-- Modelled from the spec: whether the parser knows a symbol, as a linked variable or as
a constant. -/
def MooseParser.isDefined (p : MooseParser) (name : String) : Bool :=
  (mapFind p.vars_ name).isSome || p.IsConst name

/-- Modelled from the spec: `MooseParser::SetExpr` (`compile`), which keeps the text and
compiles it against the symbol table; a failure leaves the symbol table as it is. -/
def MooseParser.SetExpr (C : CompilerOps) (p : MooseParser) (expr : String) :
    MooseParser × CompileResult :=
  ({ p with expr_ := expr }, C.compile p.vars_ p.consts_ expr)

/-- Modelled from the spec: the unknown names of a compile call with `allowUnknown`: each
symbol read that the parser does not know at that moment is handed to
`func->callbackAddSymbol`. -/
def Function.resolveUnknown (f : Function) (symbols : List String) : Function :=
  symbols.foldl (fun g n => if g.parser_.isDefined n then g else g.callbackAddSymbol n) f

/-- Modelled from the spec: `MooseParser::SetExprWithUnknown(expr, func)`, which hands the
unknown symbols of the text to `func` (unknown names become input variables) and then
compiles the text. -/
def Function.SetExprWithUnknown (C : CompilerOps) (f : Function) (expr : String) :
    Function × CompileResult :=
  let g := f.resolveUnknown (C.symbols expr)
  let r := g.parser_.SetExpr C expr
  ({ g with parser_ := r.1 }, r.2)

/-- The loop `for(auto &x : xs) addXByIndex(std::stoul(x.substr(1)))` of `innerSetExpr`;
an error is an exception of `stoul`, which ends the loop. -/
def Function.addXs (f : Function) : List String → Except String Function
  | [] => Except.ok f
  | x :: xs =>
    match stoulIndex x with
    | Except.error e => Except.error e
    | Except.ok index => Function.addXs (f.addXByIndex index) xs

/-- The loop `for(auto &y : ys) addY(std::stoul(y.substr(1)))` of `innerSetExpr`; an error
is an exception of `stoul`, which ends the loop. -/
def Function.addYs (f : Function) : List String → Except String Function
  | [] => Except.ok f
  | y :: ys =>
    match stoulIndex y with
    | Except.error e => Except.error e
    | Except.ok index => Function.addYs (f.addY index) ys

/-- The member `Function::innerSetExpr`: the state it leaves and how the compile call
ended; an error is an exception of `stoul` in one of the two loops, or an exception of
`addVariable`. -/
def Function.innerSetExpr (C : CompilerOps) (f : Function) (expr : String) :
    Except String (Function × CompileResult) :=
  let names := C.findXsYs expr
  match f.addXs names.1 with
  | Except.error e => Except.error e
  | Except.ok f1 =>
    match f1.addYs names.2 with
    | Except.error e => Except.error e
    | Except.ok f2 =>
      match f2.addVariable "t" with
      | Except.error e => Except.error e
      | Except.ok f3 =>
        if f3.allowUnknownVar_ then Except.ok (f3.SetExprWithUnknown C expr)
        else
          let r := f3.parser_.SetExpr C expr
          Except.ok ({ f3 with parser_ := r.1 }, r.2)

/-- The member `Function::setExpr`: `valid_` becomes the result of `innerSetExpr`, false
when the parser throws; an error is an exception that `setExpr` does not catch. -/
def Function.setExpr (C : CompilerOps) (f : Function) (expression : String) :
    Except String Function :=
  let expr := C.trim expression
  if expr.isEmpty then Except.ok f
  else if f.valid_ && expr == f.parser_.GetExpr then Except.ok f
  else
    match f.innerSetExpr C expr with
    | Except.error e => Except.error e
    | Except.ok (g, CompileResult.ok) => Except.ok { g with valid_ := true }
    | Except.ok (g, CompileResult.failed) => Except.ok { g with valid_ := false }
    | Except.ok (g, CompileResult.thrown) => Except.ok { g with valid_ := false }

/-! ## Fields, constants and assignment -/

/-- The member `Function::getMode`. -/
def Function.getMode (f : Function) : Nat := f.mode_

/-- The member `Function::getUseTrigger`. -/
def Function.getUseTrigger (f : Function) : Bool := f.useTrigger_

/-- The member `Function::getDoEvalAtReinit`. -/
def Function.getDoEvalAtReinit (f : Function) : Bool := f.doEvalAtReinit_

/-- The member `Function::getAllowUnknowVariable`. -/
def Function.getAllowUnknowVariable (f : Function) : Bool := f.allowUnknownVar_

/-- The member `Function::getValue`. -/
def Function.getValue (f : Function) : ℚ := f.value_

/-- The member `Function::getRate`. -/
def Function.getRate (f : Function) : ℚ := f.rate_

/-- The member `Function::setIndependent`. -/
def Function.setIndependent (f : Function) (var : String) : Function :=
  { f with independent_ := var }

/-- The member `Function::getIndependent`. -/
def Function.getIndependent (f : Function) : String := f.independent_

/-- Modelled from the spec: `MooseParser::DefineConst` (`defineConstant`), which associates
a name with a constant value. -/
def MooseParser.DefineConst (p : MooseParser) (name : String) (value : ℚ) : MooseParser :=
  { p with consts_ := mapSet p.consts_ name value }

/-- The member `Function::setConst`. -/
def Function.setConst (f : Function) (name : String) (value : ℚ) : Function :=
  { f with parser_ := f.parser_.DefineConst name value }

/-- The values behind a sequence of cell pointers, read by `*ys_[ii]`; `none` when one of
the pointers is null. -/
def derefAll : List (Option ℚ) → Option (List ℚ)
  | [] => some []
  | none :: _ => none
  | some v :: ys => (derefAll ys).map (fun r => v :: r)

/-- The member `Function::getY`; `none` when it reads through a null pointer. -/
def Function.getY (f : Function) : Option (List ℚ) := derefAll f.ys_

/-- Modelled from the spec: `MooseParser::ClearAll`, which unbinds everything from the
parser. -/
def MooseParser.ClearAll (p : MooseParser) : MooseParser :=
  { p with vars_ := [], consts_ := [] }

/-- Links the input slots from position `i` on, each under its name. -/
def MooseParser.linkXs : List Variable → Nat → MooseParser → MooseParser
  | [], _, p => p
  | x :: xs, i, p => MooseParser.linkXs xs (i + 1) (p.DefineVar x.name (CellRef.x i))

/-- Links the pulled cells `i`, `i+1`, ... (`n` of them) under the names `y{i}`. -/
def MooseParser.linkYs : Nat → Nat → MooseParser → MooseParser
  | 0, _, p => p
  | n + 1, i, p => MooseParser.linkYs n (i + 1) (p.DefineVar (yName i) (CellRef.y i))

/-- Modelled from the spec: `MooseParser::LinkVariables(xs, ys, t)`, which binds every
input slot under its name, every pulled cell under `y{i}` and the time cell under `t`. -/
def MooseParser.LinkVariables (p : MooseParser) (xs : List Variable) (ys : List (Option ℚ)) :
    MooseParser :=
  (MooseParser.linkYs ys.length 0 (MooseParser.linkXs xs 0 p)).DefineVar "t" CellRef.t

/-- The loop `for(auto x: rhs.xs_)` of `operator=`: each turn appends a new slot with the
name of `x` and assigns `varIndex_[x->getName()] = xs_.size()-1`. -/
def Function.copyXs : List Variable → Function → Function
  | [], g => g
  | x :: xs, g =>
    Function.copyXs xs
      { g with xs_ := g.xs_ ++ [Variable.new x.name],
               varIndex_ := mapSet g.varIndex_ x.name ((g.xs_ ++ [Variable.new x.name]).length - 1) }

/-- The loop `for(i = 0; i < rhs.ys_.size(); i++) ys_.push_back(new double(0.0))` of
`operator=`. -/
def Function.pushYs : Nat → Function → Function
  | 0, g => g
  | n + 1, g => Function.pushYs n { g with ys_ := g.ys_ ++ [some 0] }

/-- The member `Function::operator=`, assigning `rhs` to `target`; `self` is the test
`this == &rhs`. An error is a `ParserException` of the compile call, which `operator=`
does not catch. -/
def Function.assign (C : CompilerOps) (target rhs : Function) (self : Bool) :
    Except String Function :=
  if self then Except.ok target
  else
    let t1 : Function :=
      { target with valid_ := rhs.valid_, numVar_ := rhs.numVar_, lastValue_ := rhs.lastValue_,
                    value_ := rhs.value_, mode_ := rhs.mode_, useTrigger_ := rhs.useTrigger_,
                    doEvalAtReinit_ := rhs.doEvalAtReinit_,
                    allowUnknownVar_ := rhs.allowUnknownVar_, t_ := rhs.t_, rate_ := rhs.rate_ }
    let t2 : Function :=
      { t1 with xs_ := [], ys_ := [], varIndex_ := [], parser_ := t1.parser_.ClearAll }
    if rhs.parser_.GetExpr.length > 0 then
      let t3 := Function.copyXs rhs.xs_ t2
      let t4 := Function.pushYs rhs.ys_.length t3
      let t5 : Function := { t4 with parser_ := t4.parser_.LinkVariables t4.xs_ t4.ys_ }
      match t5.parser_.SetExpr C rhs.parser_.GetExpr with
      | (_, CompileResult.thrown) => Except.error "ParserException"
      | (p, _) => Except.ok { t5 with parser_ := p }
    else Except.ok t2

/-! ## The channel `HHChannel2D` -/

/-- The data members of `HHChannel2D` that `setXindex`, `setYindex` and `setZindex` write
(the concentrations, the gates and the members of the base class apart). -/
structure HHChannel2D where
  Xindex_ : String
  Yindex_ : String
  Zindex_ : String
  Xdep0_ : Int
  Xdep1_ : Int
  Ydep0_ : Int
  Ydep1_ : Int
  Zdep0_ : Int
  Zdep1_ : Int
  deriving DecidableEq, Repr

/-- The constructor `HHChannel2D::HHChannel2D()`. -/
def HHChannel2D.new : HHChannel2D :=
  { Xindex_ := "", Yindex_ := "", Zindex_ := "", Xdep0_ := -1, Xdep1_ := -1, Ydep0_ := -1,
    Ydep1_ := -1, Zdep0_ := -1, Zdep1_ := -1 }

/-- The static table `dep` of `HHChannel2D::dependency`: one map for each of the two
dimensions. -/
def HHChannel2D.dep : List (List (String × Int)) :=
  [[("VOLT_INDEX", 0), ("C1_INDEX", 1), ("C2_INDEX", 2),
    ("VOLT_C1_INDEX", 0), ("VOLT_C2_INDEX", 0), ("C1_C2_INDEX", 1)],
   [("VOLT_INDEX", -1), ("C1_INDEX", -1), ("C2_INDEX", -1),
    ("VOLT_C1_INDEX", 1), ("VOLT_C2_INDEX", 2), ("C1_C2_INDEX", 2)]]

/-- The member `HHChannel2D::dependency`; `none` when `dim` is not an index of the table. -/
def HHChannel2D.dependency (index : String) (dim : Nat) : Option Int :=
  match HHChannel2D.dep[dim]? with
  | none => none
  | some m =>
    match mapFind m index with
    | none => some (-1)
    | some v =>
      if v = 0 then some 0
      else if v = 1 then some 1
      else if v = 2 then some 2
      else some (-1)

/-- The member `HHChannel2D::setXindex`; `none` when the assertion `Xdep0_ >= 0` fails. -/
def HHChannel2D.setXindex (c : HHChannel2D) (Xindex : String) : Option HHChannel2D :=
  if Xindex = c.Xindex_ then some c
  else
    match HHChannel2D.dependency Xindex 0, HHChannel2D.dependency Xindex 1 with
    | some d0, some d1 =>
      if d0 ≥ 0 then some { c with Xindex_ := Xindex, Xdep0_ := d0, Xdep1_ := d1 } else none
    | _, _ => none

/-- The member `HHChannel2D::setYindex`; `none` when the assertion `Ydep0_ >= 0` fails. -/
def HHChannel2D.setYindex (c : HHChannel2D) (Yindex : String) : Option HHChannel2D :=
  if Yindex = c.Yindex_ then some c
  else
    match HHChannel2D.dependency Yindex 0, HHChannel2D.dependency Yindex 1 with
    | some d0, some d1 =>
      if d0 ≥ 0 then some { c with Yindex_ := Yindex, Ydep0_ := d0, Ydep1_ := d1 } else none
    | _, _ => none

/-- The member `HHChannel2D::setZindex`; `none` when the assertion `Zdep0_ >= 0` fails. -/
def HHChannel2D.setZindex (c : HHChannel2D) (Zindex : String) : Option HHChannel2D :=
  if Zindex = c.Zindex_ then some c
  else
    match HHChannel2D.dependency Zindex 0, HHChannel2D.dependency Zindex 1 with
    | some d0, some d1 =>
      if d0 ≥ 0 then some { c with Zindex_ := Zindex, Zdep0_ := d0, Zdep1_ := d1 } else none
    | _, _ => none

/-! ## Sample instances -/

/-- A parser for expressions that are one symbol: the value is that of the symbol (0.0
when it is not linked) and the derivative is 1.0 with respect to the symbol itself. -/
def symbolParser : ParserOps :=
  { eval := fun e env => (env e).getD 0,
    derivative := fun e _ name => if e = name then 1 else 0 }

/-- The instance `setExpr("y0")` builds from a new `Function` when the parser accepts the
text: the pulled cell `y0` from `addY(0)`, the symbols `y0` and `t` linked. -/
def pulledY0 : Function :=
  let f := Function.new.addY 0
  { f with parser_ := { (f.parser_.DefineVar "t" CellRef.t) with expr_ := "y0" } }

/-- An instance that is not valid and whose parser holds no expression text. -/
def invalidEmpty : Function := { Function.new with valid_ := false }

/-- An instance left not valid by an expression `"x0 +"` that did not compile. -/
def invalidX0 : Function :=
  let f := Function.new.addXByIndex 0
  { f with valid_ := false, parser_ := { f.parser_ with expr_ := "x0 +" } }

/-- The store after `addXByIndex(10)` and then `addXByIndex(2)`, the calls `setExpr` makes
for an expression mentioning `x2` and `x10` (it visits the names in the order of a
`set<string>`, where `"x10"` comes before `"x2"`). -/
def afterX10X2 : Function := (Function.new.addXByIndex 10).addXByIndex 2

/-- The store after `addXByIndex(2)` on a new `Function`. -/
def afterX2 : Function := Function.new.addXByIndex 2

/-- The store after `addXByIndex(5)` on a new `Function`. -/
def afterX5 : Function := Function.new.addXByIndex 5

/-- The instance `setExpr("x0")` builds from a new `Function` when the parser accepts the
text, after the push `setVar(0, v)`. -/
def pushedX0 (v : ℚ) : Function :=
  let f := (Function.new.addXByIndex 0).setVar 0 v
  { f with parser_ := { (f.parser_.DefineVar "t" CellRef.t) with expr_ := "x0" } }

/-- An instance with the three pulled slots `y0`, `y1`, `y2`, whose cells hold 1.0, 2.0
and 3.0 from an earlier tick. -/
def pulledThree : Function :=
  let f := ((Function.new.addY 0).addY 1).addY 2
  { f with ys_ := [some 1, some 2, some 3],
           parser_ := { (f.parser_.DefineVar "t" CellRef.t) with expr_ := "y2" } }

/-- The instance for `"x0"` holding 3.0, whose previous value is 2.0. -/
def previousTwo : Function := { pushedX0 3 with lastValue_ := 2 }

/-- The state of `previousTwo` after a tick at time 1 with step 0.5. -/
def previousTwoAfter : Function :=
  { previousTwo with t_ := 1, value_ := 3, rate_ := 2, lastValue_ := 3 }

/-- The instance for `"x0"` holding 3.0, in mode 0 (all three outputs). -/
def allOutputs : Function := { pushedX0 3 with mode_ := 0 }

/-- The state of `allOutputs` after a tick at time 1 with step 1. -/
def allOutputsAfter : Function :=
  { allOutputs with t_ := 1, value_ := 3, rate_ := 3, lastValue_ := 3 }

/-- The instance for `"x0"` holding -1.0, with `useTrigger` and `doEvalAtReinit` set. -/
def triggeredX0 : Function :=
  { pushedX0 (-1) with useTrigger_ := true, doEvalAtReinit_ := true }

/-- The state of `triggeredX0` after a tick at time 1 with step 1. -/
def triggeredX0After : Function :=
  { triggeredX0 with t_ := 1, value_ := -1, rate_ := -1, lastValue_ := -1 }

/-- The words of a text, cut at the blanks; `cur` is the word being read, backwards. -/
def splitWords : List Char → List Char → List String
  | [], cur => if cur.isEmpty then [] else [String.mk cur.reverse]
  | c :: cs, cur =>
    if c = ' ' then
      if cur.isEmpty then splitWords cs [] else String.mk cur.reverse :: splitWords cs []
    else splitWords cs (c :: cur)

/-- Insertion in a sorted list without repetition, the order of a `set<string>`. -/
def insertName (n : String) : List String → List String
  | [] => [n]
  | m :: ms => if n = m then m :: ms else if n < m then n :: m :: ms else m :: insertName n ms

/-- Whether the words are operands separated by `+`, each operand a number or a symbol the
tables know. -/
def sumCompiles (vars : List (String × CellRef)) (consts : List (String × ℚ)) :
    List String → Bool
  | [] => false
  | [w] => w.data.all Char.isDigit || (mapFind vars w).isSome || (mapFind consts w).isSome
  | w :: op :: ws =>
    (w.data.all Char.isDigit || (mapFind vars w).isSome || (mapFind consts w).isSome) &&
      op == "+" && sumCompiles vars consts ws

/-- A compiler for sums of symbols and numbers written with blanks around `+`, as
`"x0 + x1"`: the parser throws on any other text or on a symbol it does not know. -/
def sumCompiler : CompilerOps :=
  { trim := fun s =>
      String.mk (((s.data.dropWhile (fun c => c = ' ')).reverse.dropWhile
        (fun c => c = ' ')).reverse),
    findXsYs := fun s =>
      (((splitWords s.data []).filter (matchesIndexed 'x')).foldr insertName [],
       ((splitWords s.data []).filter (matchesIndexed 'y')).foldr insertName []),
    symbols := fun s => (splitWords s.data []).filter (fun w => (w.data.head?.map Char.isAlpha).getD false),
    compile := fun vars consts s =>
      if sumCompiles vars consts (splitWords s.data []) then CompileResult.ok
      else CompileResult.thrown }

/-- The state `setExpr("x0 +")` leaves on a new `Function` with `sumCompiler`: the text
does not compile. -/
def failedX0 : Function :=
  { (Function.new.addXByIndex 0) with
    valid_ := false,
    parser_ := { expr_ := "x0 +", vars_ := [("x0", CellRef.x 0), ("t", CellRef.t)],
                 consts_ := [] } }

/-- The state `innerSetExpr` leaves for `"x0 +"` on a new `Function`, before `setExpr`
assigns the valid flag. -/
def failedX0Inner : Function := { failedX0 with valid_ := true }

/-- A new `Function` in strict mode (`allowUnknownVariable` false). -/
def strictNew : Function := { Function.new with allowUnknownVar_ := false }

/-- The state `innerSetExpr` leaves for `"x0 + foo"` on `strictNew`: the parser does not
know `foo` and throws. -/
def strictFooInner : Function :=
  { (strictNew.addXByIndex 0) with
    parser_ := { expr_ := "x0 + foo", vars_ := [("x0", CellRef.x 0), ("t", CellRef.t)],
                 consts_ := [] } }

/-- A strict-mode `Function` with the constant `A` set to 6.0. -/
def strictWithA : Function := strictNew.setConst "A" 6

/-- The state `setExpr("x0 + x1")` leaves on a new `Function` with `sumCompiler`. -/
def sumX0X1 : Function :=
  match Function.new.setExpr sumCompiler "x0 + x1" with
  | Except.ok g => g
  | Except.error _ => Function.new

/-- The state `sumX0X1` with the independent variable set to `x0`. -/
def sumX0X1Independent : Function := sumX0X1.setIndependent "x0"

/-- The store after `addXByIndex(0)` and `addXByIndex(2)`, the calls `setExpr` makes for
`"x0+x2"`. -/
def afterX0X2 : Function := (Function.new.addXByIndex 0).addXByIndex 2

/-- The state `setExpr("y2")` builds from a new `Function` when the parser accepts the
text: `addY(2)`, the symbols `y2` and `t` linked. -/
def pulledY2 : Function :=
  let f := Function.new.addY 2
  { f with parser_ := { (f.parser_.DefineVar "t" CellRef.t) with expr_ := "y2" } }

/-! ## Lemmas on the containers -/

theorem mapFind_mapSet_self {β : Type} (m : List (String × β)) (key : String) (v : β) :
    mapFind (mapSet m key v) key = some v := by
  induction m with
  | nil => simp [mapSet, mapFind]
  | cons kv m ih =>
    obtain ⟨k, w⟩ := kv
    by_cases h : k = key
    · simp [mapSet, mapFind, h]
    · simp [mapSet, mapFind, h, ih]

theorem mapFind_mapSet_ne {β : Type} (m : List (String × β)) (key other : String) (v : β)
    (h : other ≠ key) : mapFind (mapSet m key v) other = mapFind m other := by
  induction m with
  | nil => simp [mapSet, mapFind, Ne.symm h]
  | cons kv m ih =>
    obtain ⟨k, w⟩ := kv
    by_cases hk : k = key
    · have hko : k ≠ other := by rw [hk]; exact Ne.symm h
      simp [mapSet, mapFind, hk, hko, Ne.symm h]
    · by_cases hko : k = other
      · subst hko
        simp [mapSet, mapFind, hk]
      · simp [mapSet, mapFind, hk, hko, ih]

theorem mapSet_mapSet {β : Type} (m : List (String × β)) (key : String) (v w : β) :
    mapSet (mapSet m key v) key w = mapSet m key w := by
  induction m with
  | nil => simp [mapSet]
  | cons kv m ih =>
    obtain ⟨k, u⟩ := kv
    by_cases hk : k = key
    · simp [mapSet, hk]
    · simp [mapSet, hk, ih]

theorem addXByIndexLoop_done (name : String) (index fuel i : Nat) (f : Function)
    (h : index < i) : Function.addXByIndexLoop name index fuel i f = f := by
  cases fuel with
  | zero => rfl
  | succ n => simp [Function.addXByIndexLoop, Nat.not_le.mpr h]

theorem addXByIndexLoop_varIndex (name : String) (index : Nat) :
    ∀ (fuel i : Nat) (f : Function), i ≤ index → index + 1 - i ≤ fuel →
      (Function.addXByIndexLoop name index fuel i f).varIndex_ =
        mapSet f.varIndex_ name (f.xs_.length + (index - i)) := by
  intro fuel
  induction fuel with
  | zero => intro i f hi h; omega
  | succ n ih =>
    intro i f hi h
    rw [Function.addXByIndexLoop, if_pos hi]
    simp only []
    by_cases hlast : i + 1 ≤ index
    · rw [ih (i + 1) _ hlast (by omega)]
      simp only [List.length_append, List.length_singleton, Nat.add_sub_cancel]
      rw [mapSet_mapSet]
      congr 1
      omega
    · rw [addXByIndexLoop_done name index n (i + 1) _ (by omega)]
      have h0 : index - i = 0 := by omega
      simp [h0]

theorem addXByIndexLoop_xs (name : String) (index : Nat) :
    ∀ (fuel i : Nat) (f : Function), index + 1 - i ≤ fuel →
      (Function.addXByIndexLoop name index fuel i f).xs_ =
        f.xs_ ++ (List.range' i (index + 1 - i)).map (fun k => Variable.new (xName k)) := by
  intro fuel
  induction fuel with
  | zero =>
    intro i f h
    have h0 : index + 1 - i = 0 := by omega
    simp [Function.addXByIndexLoop, h0]
  | succ n ih =>
    intro i f h
    by_cases hi : i ≤ index
    · have hstep : index + 1 - i = (index + 1 - (i + 1)) + 1 := by omega
      rw [Function.addXByIndexLoop, if_pos hi]
      simp only []
      rw [ih (i + 1) _ (by omega), hstep, List.range'_succ]
      simp
    · have h0 : index + 1 - i = 0 := by omega
      simp [Function.addXByIndexLoop, hi, h0]

/-! ## The pull phase of `process` -/

/-- What `process` stores as value on a valid instance is the expression evaluated on the
cells as they were before the pull response is copied: only the time cell is new. -/
theorem process_value_before_copy (P : ParserOps) (f g : Function) (currTime dt : ℚ)
    (databuf : List ℚ) (calls : List Call) (hv : f.valid_ = true)
    (h : f.process P currTime dt databuf = some (g, calls)) :
    g.value_ = ({ f with t_ := currTime }).getEval P := by
  unfold Function.process at h
  simp only [hv, Bool.not_true, Bool.false_eq_true, if_false] at h
  split at h
  · exact absurd h (by simp)
  · split at h
    · simp only [Option.some.injEq, Prod.mk.injEq] at h
      rw [← h.1]
      simp only [hv]
    · simp only [Option.some.injEq, Prod.mk.injEq] at h
      rw [← h.1]
      unfold Function.processRoute
      split <;> simp only [hv]

/-- C1, evaluated on the code: on the valid instance built for the expression `y0`, whose
pulled cell holds 0.0, a tick whose pull response is `[5.0]` stores the value 0.0 and
sends it on `valueOut`; the cell `y0` holds 5.0 only after the evaluation, and the
expression evaluated on the pulled cell is 5.0. -/
theorem process_evaluates_stale_pulled_cell :
    pulledY0.valid_ = true ∧
    (pulledY0.process symbolParser 1 1 [5]).map (fun r => (r.1.value_, r.1.ys_, r.2)) =
      some (0, [some 5], [Call.requestOut, Call.eval, Call.valueOut 0]) ∧
    (pulledY0.process symbolParser 1 1 [5]).map (fun r => r.1.getEval symbolParser) =
      some 5 := by
  decide

/-! ## The name→index table -/

/-- C2, evaluated on the code: after `addXByIndex(10)` and `addXByIndex(2)` the name `x2`
is registered with index 10, the position of the slot named `x10`, while the slot named
`x2` is at position 2. -/
theorem getVarIndex_x2_after_x10 :
    afterX10X2.symbolExists "x2" = true ∧
    afterX10X2.getVarIndex "x2" = 10 ∧
    (afterX10X2.xs_[10]?).map Variable.name = some "x10" ∧
    (afterX10X2.xs_[2]?).map Variable.name = some "x2" := by
  decide

/-- What `addXByIndex(i)` does when the name `x{i}` is not registered and the store has at
most `i` slots: the slots from the old length up to `x{i}` are appended, and the table
gets the one entry `x{i}` with index `i`. -/
theorem addXByIndex_grow (f : Function) (i : Nat) (hs : f.symbolExists (xName i) = false)
    (hl : f.xs_.length ≤ i) :
    (f.addXByIndex i).xs_ =
      f.xs_ ++ (List.range' f.xs_.length (i + 1 - f.xs_.length)).map
        (fun k => Variable.new (xName k)) ∧
    (f.addXByIndex i).varIndex_ = mapSet f.varIndex_ (xName i) i := by
  have hx := addXByIndexLoop_xs (xName i) i (i + 1 - f.xs_.length) f.xs_.length f
    (Nat.le_refl _)
  have hv := addXByIndexLoop_varIndex (xName i) i (i + 1 - f.xs_.length) f.xs_.length f hl
    (Nat.le_refl _)
  simp only [Function.addXByIndex, hs, Bool.false_eq_true, if_false, ge_iff_le, hl, if_true]
  refine ⟨hx, ?_⟩
  rw [hv, hx, mapSet_mapSet]
  congr 1
  simp only [List.length_append, List.length_map, List.length_range']
  omega

/-- C3 as stated fails: `addXByIndex(2)` on a new `Function` creates the slots `x0`, `x1`,
`x2` and registers the name `x2` only; `symbolExists` is false for the gap slots `x0` and
`x1`, and `getVarIndex("x0")` is the not-found value. -/
theorem addXByIndex_gap_slots_unregistered :
    afterX2.xs_.map Variable.name = ["x0", "x1", "x2"] ∧
    afterX2.varIndex_ = [("x2", 2)] ∧
    afterX2.symbolExists "x0" = false ∧
    afterX2.symbolExists "x1" = false ∧
    afterX2.getVarIndex "x0" = UINT_MAX := by
  decide

/-- C3, amended: when `addXByIndex(i)` grows the input slots (the name `x{i}` is not
registered and there are at most `i` slots), the slots from the old length up to `x{i}`
are created, the name `x{i}` is registered with index `i`, and no other name is added
to or removed from the table, the names of the gap slots included. -/
theorem addXByIndex_registers_requested_name (f : Function) (i : Nat)
    (hs : f.symbolExists (xName i) = false) (hl : f.xs_.length ≤ i) :
    (f.addXByIndex i).xs_.map Variable.name =
      f.xs_.map Variable.name ++ (List.range' f.xs_.length (i + 1 - f.xs_.length)).map xName ∧
    (f.addXByIndex i).symbolExists (xName i) = true ∧
    (f.addXByIndex i).getVarIndex (xName i) = i ∧
    (∀ n, n ≠ xName i → (f.addXByIndex i).symbolExists n = f.symbolExists n) := by
  obtain ⟨hx, hv⟩ := addXByIndex_grow f i hs hl
  refine ⟨?_, ?_, ?_, ?_⟩
  · rw [hx]
    simp [Variable.new, Function.comp_def]
  · simp [Function.symbolExists, hv, mapFind_mapSet_self]
  · simp [Function.getVarIndex, hv, mapFind_mapSet_self]
  · intro n hn
    simp [Function.symbolExists, hv, mapFind_mapSet_ne _ _ _ _ hn]

/-- C3, amended, at a concrete input: `addXByIndex(2)` on a new `Function`. -/
theorem addXByIndex_registers_requested_name_witness :
    (Function.new.addXByIndex 2).xs_.map Variable.name =
      Function.new.xs_.map Variable.name ++
        (List.range' Function.new.xs_.length (2 + 1 - Function.new.xs_.length)).map xName ∧
    (Function.new.addXByIndex 2).symbolExists (xName 2) = true ∧
    (Function.new.addXByIndex 2).getVarIndex (xName 2) = 2 ∧
    (∀ n, n ≠ xName 2 →
      (Function.new.addXByIndex 2).symbolExists n = Function.new.symbolExists n) :=
  addXByIndex_registers_requested_name Function.new 2 (by decide) (by decide)

/-- C4: for every index `i`, `addXByIndex(i)` on an empty store leaves exactly the `i+1`
input slots `x0`, ..., `x{i}`, in that order, each holding 0.0. -/
theorem addXByIndex_empty_store (f : Function) (i : Nat) (hx : f.xs_ = [])
    (hv : f.varIndex_ = []) :
    (f.addXByIndex i).xs_ =
      (List.range (i + 1)).map (fun k => { name := xName k, value := 0 }) ∧
    (f.addXByIndex i).xs_.length = i + 1 := by
  have hs : f.symbolExists (xName i) = false := by simp [Function.symbolExists, hv, mapFind]
  have hxs : (f.addXByIndex i).xs_ =
      (List.range (i + 1)).map (fun k => { name := xName k, value := 0 }) := by
    rw [(addXByIndex_grow f i hs (by simp [hx])).1, hx, List.range_eq_range']
    rfl
  exact ⟨hxs, by rw [hxs]; simp⟩

/-- C4 at a concrete input: `addXByIndex(5)` on a new `Function` leaves the six slots
`x0`, ..., `x5`. -/
theorem addXByIndex_empty_store_witness :
    (Function.new.addXByIndex 5).xs_ =
      (List.range (5 + 1)).map (fun k => { name := xName k, value := 0 }) ∧
    (Function.new.addXByIndex 5).xs_.length = 5 + 1 :=
  addXByIndex_empty_store Function.new 5 rfl rfl

/-- C5 as stated fails: after `addXByIndex(5)` a slot named `x2` exists (a gap slot), yet
`addXByIndex(2)` is not a no-op: it adds an entry for `x2` to the table, links the symbol
and raises `numVar` from 1 to 2; the slots stay as they are. -/
theorem addXByIndex_on_gap_slot_changes_state :
    (afterX5.xs_[2]?).map Variable.name = some "x2" ∧
    afterX5.addXByIndex 2 ≠ afterX5 ∧
    afterX5.symbolExists "x2" = false ∧
    (afterX5.addXByIndex 2).symbolExists "x2" = true ∧
    afterX5.numVar_ = 1 ∧
    (afterX5.addXByIndex 2).numVar_ = 2 ∧
    (afterX5.addXByIndex 2).xs_ = afterX5.xs_ := by
  decide

/-- C5, amended: `addXByIndex(i)` is a no-op whenever the name `x{i}` is registered in the
name→index table. When the name is not registered and a slot of index `i` exists, the
slots are left as they are, the name becomes registered and the symbol is linked to the
slot of index `i`. -/
theorem addXByIndex_registered_noop (f : Function) (i : Nat) :
    (f.symbolExists (xName i) = true → f.addXByIndex i = f) ∧
    (f.symbolExists (xName i) = false → i < f.xs_.length →
      (f.addXByIndex i).xs_ = f.xs_ ∧
      (f.addXByIndex i).symbolExists (xName i) = true ∧
      mapFind (f.addXByIndex i).parser_.vars_ (xName i) = some (CellRef.x i)) := by
  constructor
  · intro h
    simp [Function.addXByIndex, h]
  · intro h hlt
    have hge : ¬ i ≥ f.xs_.length := by omega
    simp only [Function.addXByIndex, h, Bool.false_eq_true, if_false, hge]
    simp [Function.symbolExists, MooseParser.DefineVar, mapFind_mapSet_self]

/-- C5, amended, at concrete inputs: after `addXByIndex(5)`, the call `addXByIndex(5)` is a
no-op, and the call `addXByIndex(2)` keeps the slots and registers `x2`. -/
theorem addXByIndex_registered_noop_witness :
    afterX5.addXByIndex 5 = afterX5 ∧
    ((afterX5.addXByIndex 2).xs_ = afterX5.xs_ ∧
      (afterX5.addXByIndex 2).symbolExists (xName 2) = true ∧
      mapFind (afterX5.addXByIndex 2).parser_.vars_ (xName 2) = some (CellRef.x 2)) :=
  ⟨(addXByIndex_registered_noop afterX5 5).1 (by decide),
   (addXByIndex_registered_noop afterX5 2).2 (by decide) (by decide)⟩

/-! ## Growing the store by name and the pulled slots -/

/-- C6: `addXByName(name)` leaves the state as it is when the name is registered;
otherwise it appends one slot of that name after the existing slots and registers the name
with the old number of slots. A second call with the same name changes nothing. -/
theorem addXByName_spec (f : Function) (name : String) :
    (f.symbolExists name = true → f.addXByName name = f) ∧
    (f.symbolExists name = false →
      (f.addXByName name).xs_ = f.xs_ ++ [Variable.new name] ∧
      (f.addXByName name).symbolExists name = true ∧
      (f.addXByName name).getVarIndex name = f.xs_.length) ∧
    (f.addXByName name).addXByName name = f.addXByName name := by
  have hnew : f.symbolExists name = false →
      (f.addXByName name).xs_ = f.xs_ ++ [Variable.new name] ∧
      (f.addXByName name).symbolExists name = true ∧
      (f.addXByName name).getVarIndex name = f.xs_.length := by
    intro h
    simp only [Function.addXByName, h, Bool.false_eq_true, if_false]
    simp [Function.symbolExists, Function.getVarIndex, mapFind_mapSet_self]
  refine ⟨fun h => by simp [Function.addXByName, h], hnew, ?_⟩
  cases h : f.symbolExists name with
  | true => simp [Function.addXByName, h]
  | false =>
    have h2 := (hnew h).2.1
    generalize f.addXByName name = g at h2
    simp [Function.addXByName, h2]

/-- C6 at concrete inputs: `addXByName("Vm")` on a new `Function` appends the slot `Vm` at
index 0, and on the result it is a no-op. -/
theorem addXByName_spec_witness :
    ((Function.new.addXByName "Vm").xs_ = Function.new.xs_ ++ [Variable.new "Vm"] ∧
      (Function.new.addXByName "Vm").symbolExists "Vm" = true ∧
      (Function.new.addXByName "Vm").getVarIndex "Vm" = Function.new.xs_.length) ∧
    (Function.new.addXByName "Vm").addXByName "Vm" = Function.new.addXByName "Vm" :=
  ⟨(addXByName_spec Function.new "Vm").2.1 (by decide),
   (addXByName_spec (Function.new.addXByName "Vm") "Vm").1 (by decide)⟩

/-- The effect of `addY` on the pulled slots and its frame. -/
theorem addY_cells (f : Function) (i : Nat) :
    (f.addY i).ys_.length = max f.ys_.length (i + 1) ∧
    (f.addY i).ys_[i]? = some (some 0) ∧
    (∀ j, j < f.ys_.length → j ≠ i → (f.addY i).ys_[j]? = f.ys_[j]?) ∧
    (f.addY i).xs_ = f.xs_ ∧
    (f.addY i).varIndex_ = f.varIndex_ ∧
    (f.addY i).numVar_ = f.numVar_ := by
  by_cases h : i ≥ f.ys_.length
  · refine ⟨?_, ?_, ?_, ?_, ?_, ?_⟩
    · simp only [Function.addY, h, if_true, resizeYs, List.length_set, List.length_append,
        List.length_replicate]
      omega
    · simp only [Function.addY, h, if_true, resizeYs]
      rw [List.getElem?_set_self]
      simp only [List.length_append, List.length_replicate]
      omega
    · intro j hj hji
      simp only [Function.addY, h, if_true, resizeYs]
      rw [List.getElem?_set_ne (Ne.symm hji), List.getElem?_append_left hj]
    · simp [Function.addY, h]
    · simp [Function.addY, h]
    · simp [Function.addY, h]
  · have hlt : i < f.ys_.length := by omega
    refine ⟨?_, ?_, ?_, ?_, ?_, ?_⟩
    · simp only [Function.addY, h, if_false, List.length_set]
      omega
    · simp only [Function.addY, h, if_false]
      rw [List.getElem?_set_self hlt]
    · intro j _ hji
      simp only [Function.addY, h, if_false]
      rw [List.getElem?_set_ne (Ne.symm hji)]
    · simp [Function.addY, h]
    · simp [Function.addY, h]
    · simp [Function.addY, h]

/-- C8: `setVar(index, value)` with `index` below the number of input slots leaves that
slot holding `value` under its old name, and every other slot and every other field as
they were; with `index` out of range it leaves the whole state as it was. -/
theorem setVar_spec (f : Function) (index : Nat) (value : ℚ) :
    (index < f.xs_.length →
      ((f.setVar index value).xs_[index]?).map Variable.value = some value ∧
      ((f.setVar index value).xs_[index]?).map Variable.name =
        (f.xs_[index]?).map Variable.name ∧
      (∀ j, j ≠ index → (f.setVar index value).xs_[j]? = f.xs_[j]?) ∧
      (f.setVar index value).xs_.length = f.xs_.length ∧
      f.setVar index value = { f with xs_ := (f.setVar index value).xs_ }) ∧
    (f.xs_.length ≤ index → f.setVar index value = f) := by
  constructor
  · intro h
    refine ⟨?_, ?_, ?_, ?_, ?_⟩
    · simp [Function.setVar, h, Variable.setValue, List.getElem?_eq_getElem h]
    · simp [Function.setVar, h, Variable.setValue, List.getElem?_eq_getElem h]
    · intro j hj
      simp only [Function.setVar, h, if_true]
      rw [List.getElem?_modify_ne _ _ (Ne.symm hj)]
    · simp [Function.setVar, h]
    · simp [Function.setVar, h]
  · intro h
    have h2 : ¬ index < f.xs_.length := by omega
    simp [Function.setVar, h2]

/-- C8 at concrete inputs: on the three slots `x0`, `x1`, `x2`, the push `setVar(1, 7.0)`
leaves slot 1 holding 7.0, and the push `setVar(3, 7.0)` is ignored. -/
theorem setVar_spec_witness :
    ((afterX2.setVar 1 7).xs_[1]?).map Variable.value = some 7 ∧
    afterX2.setVar 3 7 = afterX2 :=
  ⟨((setVar_spec afterX2 1 7).1 (by decide)).1, (setVar_spec afterX2 3 7).2 (by decide)⟩

/-! ## The validity gate -/

/-- C9: `process` on an instance with `valid = false` returns at once: no pull request, no
evaluation, no value sent, and the state (value, previous value, rate, time, slots,
pulled cells) is the state before the call. -/
theorem process_invalid (P : ParserOps) (f : Function) (currTime dt : ℚ)
    (databuf : List ℚ) (h : f.valid_ = false) :
    f.process P currTime dt databuf = some (f, []) := by
  simp [Function.process, h]

/-- C9 at a concrete input: the instance left not valid by `"x0 +"`, a tick at time 3 with
step 1 and pull response `[7]`. -/
theorem process_invalid_witness :
    invalidX0.valid_ = false ∧
    invalidX0.process symbolParser 3 1 [7] = some (invalidX0, []) :=
  ⟨by decide, process_invalid symbolParser invalidX0 3 1 [7] (by decide)⟩

/-- C10 as stated fails: on the instance with `valid = false` whose parser holds no
expression text, `reinit` goes on: with `doEvalAtReinit` false it sends 0.0 on `valueOut`,
and with `doEvalAtReinit` true it evaluates the expression and sends the result. -/
theorem reinit_invalid_empty_expr_fires :
    invalidEmpty.valid_ = false ∧
    (invalidEmpty.reinit symbolParser 3).2 = [Call.valueOut 0] ∧
    (({ invalidEmpty with doEvalAtReinit_ := true }).reinit symbolParser 3).2 =
      [Call.eval, Call.valueOut 0] := by
  decide

/-- C10, amended: `reinit` on an instance with `valid = false` whose parser holds a
non-empty expression text neither evaluates nor sends anything, and leaves the state as
it was, for every `doEvalAtReinit` and every mode. -/
theorem reinit_invalid_nonempty (P : ParserOps) (f : Function) (currTime : ℚ)
    (hv : f.valid_ = false) (he : f.parser_.GetExpr.isEmpty = false) :
    f.reinit P currTime = (f, []) := by
  simp [Function.reinit, hv, he]

/-- C10, amended, at a concrete input: the instance left not valid by `"x0 +"`. -/
theorem reinit_invalid_nonempty_witness :
    invalidX0.valid_ = false ∧ invalidX0.parser_.GetExpr.isEmpty = false ∧
    invalidX0.reinit symbolParser 3 = (invalidX0, []) :=
  ⟨by decide, by decide, reinit_invalid_nonempty symbolParser invalidX0 3 (by decide) (by decide)⟩

/-! ## A tick on a valid instance -/

/-- The copy loop returns when every pulled slot owns a cell. -/
theorem copyPulled_allocated (ys : List (Option ℚ)) :
    ∀ (databuf : List ℚ), (∀ c ∈ ys, c.isSome = true) → (copyPulled ys databuf).isSome = true := by
  induction ys with
  | nil => intro databuf _; simp [copyPulled]
  | cons y ys ih =>
    intro databuf h
    cases databuf with
    | nil => simp [copyPulled]
    | cons d ds =>
      cases y with
      | none => simpa using h none (by simp)
      | some v =>
        have h2 := ih ds (fun c hc => h c (by simp [hc]))
        simp only [copyPulled, Option.isSome_map']
        exact h2

theorem copyPulled_spec (ys : List (Option ℚ)) :
    ∀ (databuf : List ℚ) (r : List (Option ℚ)), copyPulled ys databuf = some r →
      r.length = ys.length ∧
      (∀ i, i < ys.length → i < databuf.length → r[i]? = (databuf[i]?).map some) ∧
      (∀ i, databuf.length ≤ i → r[i]? = ys[i]?) := by
  induction ys with
  | nil =>
    intro databuf r h
    simp only [copyPulled, Option.some.injEq] at h
    subst h
    simp
  | cons y ys ih =>
    intro databuf r h
    cases databuf with
    | nil =>
      simp only [copyPulled, Option.some.injEq] at h
      subst h
      simp
    | cons d ds =>
      cases y with
      | none => simp [copyPulled] at h
      | some v =>
        simp only [copyPulled, Option.map_eq_some'] at h
        obtain ⟨r2, hr2, rfl⟩ := h
        obtain ⟨hlen, hcopy, hkeep⟩ := ih ds r2 hr2
        refine ⟨by simp [hlen], ?_, ?_⟩
        · intro i hi hb
          cases i with
          | zero => simp
          | succ j =>
            simp only [List.length_cons, Nat.add_lt_add_iff_right] at hi hb
            simpa using hcopy j hi hb
        · intro i hi
          cases i with
          | zero => simp at hi
          | succ j =>
            simp only [List.length_cons, Nat.add_le_add_iff_right] at hi
            simpa using hkeep j hi

theorem processRoute_state (P : ParserOps) (f : Function) :
    (f.processRoute P).1 = { f with lastValue_ := f.value_ } := by
  unfold Function.processRoute
  split <;> rfl

theorem processRoute_outputs (P : ParserOps) (f : Function) :
    (f.processRoute P).2.filter Call.isOutput =
      if f.mode_ = 1 then [Call.valueOut f.value_]
      else if f.mode_ = 2 then [Call.derivativeOut (f.getDerivative P)]
      else if f.mode_ = 3 then [Call.rateOut f.rate_]
      else [Call.valueOut f.value_, Call.derivativeOut (f.getDerivative P),
        Call.rateOut f.rate_] := by
  unfold Function.processRoute Function.getDerivativeCalls
  split
  · next h => simp [h, Call.isOutput]
  · next h => cases hv : f.valid_ <;> simp [h, hv, Call.isOutput]
  · next h => simp [h, Call.isOutput]
  · next h1 h2 h3 =>
    rw [if_neg h1, if_neg h2, if_neg h3]
    cases hv : f.valid_ <;> simp [Call.isOutput]

/-- A tick on a valid instance, step by step: the copy loop decides whether the call
returns; the state it returns has the time, the value computed on the cells found, the
rate, the copied cells and the previous value advanced; the calls are the pull request,
the evaluation and, unless the trigger suppresses them, those of the mode. -/
theorem process_valid (P : ParserOps) (f : Function) (currTime dt : ℚ) (databuf : List ℚ)
    (hv : f.valid_ = true) :
    f.process P currTime dt databuf =
      (copyPulled f.ys_ databuf).map (fun ys =>
        let v := ({ f with t_ := currTime }).getEval P
        let f4 : Function :=
          { f with t_ := currTime, value_ := v, rate_ := (v - f.lastValue_) / dt, ys_ := ys }
        ({ f4 with lastValue_ := v },
          [Call.requestOut, Call.eval] ++
            if f.useTrigger_ && decide (v < TriggerThreshold) then []
            else (f4.processRoute P).2)) := by
  unfold Function.process
  simp only [hv, Bool.not_true, Bool.false_eq_true, if_false]
  cases hc : copyPulled f.ys_ databuf with
  | none => simp
  | some ys =>
    simp only [Option.map_some']
    split
    · simp [hv]
    · simp [hv, processRoute_state]

/-- C11: after `process` on a valid instance with step `dt`, the stored rate is the value
computed in this tick minus the previous value held before the call, divided by `dt`,
whatever the mode and the trigger setting; and the call returns when every pulled slot
owns a cell. -/
theorem process_rate (P : ParserOps) (f : Function) (currTime dt : ℚ) (databuf : List ℚ)
    (hv : f.valid_ = true) :
    (∀ g calls, f.process P currTime dt databuf = some (g, calls) →
      g.rate_ = (g.value_ - f.lastValue_) / dt) ∧
    ((∀ c ∈ f.ys_, c.isSome = true) → (f.process P currTime dt databuf).isSome = true) := by
  rw [process_valid P f currTime dt databuf hv]
  constructor
  · intro g calls h
    simp only [Option.map_eq_some', Prod.mk.injEq] at h
    obtain ⟨ys, _, hg, _⟩ := h
    rw [← hg]
  · intro hy
    simpa using copyPulled_allocated f.ys_ databuf hy

/-- C11 at a concrete input: previous value 2.0, computed value 3.0 and `dt` = 0.5 give
the rate 2.0. -/
theorem process_rate_witness :
    previousTwo.lastValue_ = 2 ∧
    previousTwo.process symbolParser 1 (1 / 2) [] =
      some (previousTwoAfter, [Call.requestOut, Call.eval, Call.valueOut 3]) ∧
    previousTwoAfter.rate_ = (previousTwoAfter.value_ - previousTwo.lastValue_) / (1 / 2) ∧
    previousTwoAfter.rate_ = 2 :=
  ⟨by decide, by decide!,
    (process_rate symbolParser previousTwo 1 (1 / 2) [] (by decide)).1 previousTwoAfter
      [Call.requestOut, Call.eval, Call.valueOut 3] (by decide!),
    by decide⟩

/-- C12: on a valid instance whose outputs the trigger does not suppress, a tick sends
exactly `valueOut` in mode 1, exactly `derivativeOut` in mode 2, exactly `rateOut` in
mode 3, and the three of them, once each, in every other mode; and the call returns when
every pulled slot owns a cell. -/
theorem process_mode_policy (P : ParserOps) (f : Function) (currTime dt : ℚ)
    (databuf : List ℚ) (hv : f.valid_ = true) :
    (∀ g calls, f.process P currTime dt databuf = some (g, calls) →
      ¬ (f.useTrigger_ = true ∧ g.value_ < TriggerThreshold) →
      (f.mode_ = 1 → calls.filter Call.isOutput = [Call.valueOut g.value_]) ∧
      (f.mode_ = 2 → calls.filter Call.isOutput = [Call.derivativeOut (g.getDerivative P)]) ∧
      (f.mode_ = 3 → calls.filter Call.isOutput = [Call.rateOut g.rate_]) ∧
      (f.mode_ ≠ 1 → f.mode_ ≠ 2 → f.mode_ ≠ 3 →
        calls.filter Call.isOutput =
          [Call.valueOut g.value_, Call.derivativeOut (g.getDerivative P),
            Call.rateOut g.rate_])) ∧
    ((∀ c ∈ f.ys_, c.isSome = true) → (f.process P currTime dt databuf).isSome = true) := by
  rw [process_valid P f currTime dt databuf hv]
  constructor
  · intro g calls h hn
    simp only [Option.map_eq_some', Prod.mk.injEq] at h
    obtain ⟨ys, _, hg, hc⟩ := h
    subst hg
    have hcond : (f.useTrigger_ && decide
        (({ f with t_ := currTime } : Function).getEval P < TriggerThreshold)) = false := by
      by_cases ht : f.useTrigger_ = true
      · have hge : ¬ (({ f with t_ := currTime } : Function).getEval P < TriggerThreshold) :=
          fun hlt => hn ⟨ht, hlt⟩
        simp [hge]
      · simp [ht]
    rw [hcond] at hc
    subst hc
    simp only [Bool.false_eq_true, if_false, List.filter_append, processRoute_outputs]
    refine ⟨fun h1 => ?_, fun h2 => ?_, fun h3 => ?_, fun h1 h2 h3 => ?_⟩
    · simp [Call.isOutput, h1]
    · simp [Call.isOutput, h2]
      rfl
    · simp [Call.isOutput, h3]
    · simp [Call.isOutput, h1, h2, h3]
      rfl
  · intro hy
    simpa using copyPulled_allocated f.ys_ databuf hy

/-- C12 at a concrete input: in mode 0 a tick on the instance for `"x0"` holding 3.0 sends
the value, the derivative and the rate, once each. -/
theorem process_mode_policy_witness :
    allOutputs.process symbolParser 1 1 [] =
      some (allOutputsAfter,
        [Call.requestOut, Call.eval, Call.valueOut 3, Call.derivative "t",
          Call.derivativeOut 0, Call.rateOut 3]) ∧
    [Call.requestOut, Call.eval, Call.valueOut 3, Call.derivative "t",
        Call.derivativeOut 0, Call.rateOut 3].filter Call.isOutput =
      [Call.valueOut allOutputsAfter.value_,
        Call.derivativeOut (allOutputsAfter.getDerivative symbolParser),
        Call.rateOut allOutputsAfter.rate_] :=
  ⟨by decide!,
    ((process_mode_policy symbolParser allOutputs 1 1 [] (by decide)).1 allOutputsAfter
      [Call.requestOut, Call.eval, Call.valueOut 3, Call.derivative "t",
        Call.derivativeOut 0, Call.rateOut 3] (by decide!) (by decide!)).2.2.2
      (by decide) (by decide) (by decide)⟩

/-- C13: on a valid instance a tick sends nothing on the output ports if and only if
`useTrigger` is true and the computed value is strictly below 0.0; in either case the
previous value becomes the computed value; and the call returns when every pulled slot
owns a cell. -/
theorem process_trigger (P : ParserOps) (f : Function) (currTime dt : ℚ) (databuf : List ℚ)
    (hv : f.valid_ = true) :
    (∀ g calls, f.process P currTime dt databuf = some (g, calls) →
      (calls.filter Call.isOutput = [] ↔
        (f.useTrigger_ = true ∧ g.value_ < TriggerThreshold)) ∧
      g.lastValue_ = g.value_) ∧
    ((∀ c ∈ f.ys_, c.isSome = true) → (f.process P currTime dt databuf).isSome = true) := by
  rw [process_valid P f currTime dt databuf hv]
  constructor
  · intro g calls h
    simp only [Option.map_eq_some', Prod.mk.injEq] at h
    obtain ⟨ys, _, hg, hc⟩ := h
    subst hg
    subst hc
    refine ⟨?_, rfl⟩
    by_cases hcond : f.useTrigger_ = true ∧
        ({ f with t_ := currTime } : Function).getEval P < TriggerThreshold
    · have hb : (f.useTrigger_ && decide
          (({ f with t_ := currTime } : Function).getEval P < TriggerThreshold)) = true := by
        rw [Bool.and_eq_true]
        exact ⟨hcond.1, decide_eq_true hcond.2⟩
      rw [hb]
      simp only [if_true, List.append_nil]
      exact ⟨fun _ => hcond, fun _ => by simp [Call.isOutput]⟩
    · have hb : (f.useTrigger_ && decide
          (({ f with t_ := currTime } : Function).getEval P < TriggerThreshold)) = false := by
        by_cases ht : f.useTrigger_ = true
        · have hge : ¬ (({ f with t_ := currTime } : Function).getEval P <
              TriggerThreshold) := fun hlt => hcond ⟨ht, hlt⟩
          simp [hge]
        · simp [ht]
      rw [hb]
      simp only [Bool.false_eq_true, if_false, List.filter_append, processRoute_outputs]
      constructor
      · intro h
        exfalso
        revert h
        split_ifs <;> simp [Call.isOutput]
      · intro h
        exact absurd h hcond
  · intro hy
    simpa using copyPulled_allocated f.ys_ databuf hy

/-- C13 at a concrete input: with `useTrigger` set and the computed value -1.0, a tick
sends nothing on the output ports and the previous value becomes -1.0. -/
theorem process_trigger_witness :
    triggeredX0.process symbolParser 1 1 [] =
      some (triggeredX0After, [Call.requestOut, Call.eval]) ∧
    ([Call.requestOut, Call.eval].filter Call.isOutput = [] ↔
      (triggeredX0.useTrigger_ = true ∧ triggeredX0After.value_ < TriggerThreshold)) ∧
    triggeredX0After.lastValue_ = triggeredX0After.value_ ∧
    triggeredX0After.lastValue_ = -1 :=
  ⟨by decide!,
    ((process_trigger symbolParser triggeredX0 1 1 [] (by decide)).1 triggeredX0After
      [Call.requestOut, Call.eval] (by decide!)).1,
    ((process_trigger symbolParser triggeredX0 1 1 [] (by decide)).1 triggeredX0After
      [Call.requestOut, Call.eval] (by decide!)).2,
    by decide⟩

/-- C18: on a valid instance whose pulled slots all own a cell, a tick with a pull
response of any length returns; afterwards there are as many pulled slots as before, the
cell `i` holds `databuf[i]` for every `i` below both lengths, and every cell from the
length of the response on holds what it held. -/
theorem process_pull_mismatch (P : ParserOps) (f : Function) (currTime dt : ℚ)
    (databuf : List ℚ) (hv : f.valid_ = true) (hy : ∀ c ∈ f.ys_, c.isSome = true) :
    ∃ g calls, f.process P currTime dt databuf = some (g, calls) ∧
      g.ys_.length = f.ys_.length ∧
      (∀ i, i < f.ys_.length → i < databuf.length → g.ys_[i]? = (databuf[i]?).map some) ∧
      (∀ i, databuf.length ≤ i → g.ys_[i]? = f.ys_[i]?) := by
  rw [process_valid P f currTime dt databuf hv]
  have hsome := copyPulled_allocated f.ys_ databuf hy
  obtain ⟨ys, hys⟩ := Option.isSome_iff_exists.mp hsome
  rw [hys]
  exact ⟨_, _, rfl, copyPulled_spec f.ys_ databuf ys hys⟩

/-- C18 at a concrete input: three pulled slots holding 1.0, 2.0, 3.0 and the response
`[7.0, 8.0]`: the first two cells are updated and the third keeps 3.0. -/
theorem process_pull_mismatch_witness :
    (pulledThree.process symbolParser 1 1 [7, 8]).map (fun r => r.1.ys_) =
      some [some 7, some 8, some 3] ∧
    ∃ g calls, pulledThree.process symbolParser 1 1 [7, 8] = some (g, calls) ∧
      g.ys_.length = pulledThree.ys_.length ∧
      (∀ i, i < pulledThree.ys_.length → i < [(7 : ℚ), 8].length →
        g.ys_[i]? = (([(7 : ℚ), 8])[i]?).map some) ∧
      (∀ i, [(7 : ℚ), 8].length ≤ i → g.ys_[i]? = pulledThree.ys_[i]?) :=
  ⟨by decide!, process_pull_mismatch symbolParser pulledThree 1 1 [7, 8] (by decide) (by decide)⟩

/-! ## Reinitialisation of a valid instance -/

theorem reinitRoute_outputs (f : Function) :
    f.reinitRoute.filter Call.isOutput =
      if f.mode_ = 1 then [Call.valueOut f.value_]
      else if f.mode_ = 2 then [Call.derivativeOut 0]
      else if f.mode_ = 3 then [Call.rateOut f.rate_]
      else [Call.valueOut f.value_, Call.derivativeOut 0, Call.rateOut f.rate_] := by
  unfold Function.reinitRoute
  split
  · next h => simp [h, Call.isOutput]
  · next h => simp [h, Call.isOutput]
  · next h => simp [h, Call.isOutput]
  · next h1 h2 h3 =>
    rw [if_neg h1, if_neg h2, if_neg h3]
    simp [Call.isOutput]

/-- The state and the calls of `reinit` when it is not skipped. -/
theorem reinit_run (P : ParserOps) (f : Function) (currTime : ℚ)
    (h : (f.valid_ || f.parser_.GetExpr.isEmpty) = true) :
    f.reinit P currTime =
      (({ f with t_ := currTime,
                 value_ := if f.doEvalAtReinit_ then ({ f with t_ := currTime } : Function).getEval P
                           else 0,
                 lastValue_ := if f.doEvalAtReinit_ then
                                 ({ f with t_ := currTime } : Function).getEval P
                               else 0,
                 rate_ := 0 } : Function),
        (if f.doEvalAtReinit_ then [Call.eval] else []) ++
          (({ f with value_ := if f.doEvalAtReinit_ then
                                 ({ f with t_ := currTime } : Function).getEval P
                               else 0,
                     rate_ := 0 } : Function)).reinitRoute) := by
  unfold Function.reinit
  rw [h]
  cases hd : f.doEvalAtReinit_ <;> simp [Function.reinitRoute]

/-- C14: after `reinit` on a valid instance at scheduler time `T`, the stored time is `T`,
the rate is 0.0, and the value and the previous value are equal: the expression evaluated
at time `T` when `doEvalAtReinit` is true, 0.0 when it is false. -/
theorem reinit_valid_state (P : ParserOps) (f : Function) (T : ℚ) (hv : f.valid_ = true) :
    (f.reinit P T).1.t_ = T ∧
    (f.reinit P T).1.rate_ = 0 ∧
    (f.reinit P T).1.value_ = (f.reinit P T).1.lastValue_ ∧
    (f.doEvalAtReinit_ = true →
      (f.reinit P T).1.value_ = ({ f with t_ := T } : Function).getEval P) ∧
    (f.doEvalAtReinit_ = false → (f.reinit P T).1.value_ = 0) := by
  rw [reinit_run P f T (by simp [hv])]
  refine ⟨rfl, rfl, rfl, fun h => ?_, fun h => ?_⟩
  · simp [h]
  · simp [h]

/-- C14 at a concrete input: the instance for `"x0"` holding -1.0 with `doEvalAtReinit`
set, at time 5: value and previous value are -1.0, the rate is 0.0. -/
theorem reinit_valid_state_witness :
    (triggeredX0.reinit symbolParser 5).1.t_ = 5 ∧
    (triggeredX0.reinit symbolParser 5).1.rate_ = 0 ∧
    (triggeredX0.reinit symbolParser 5).1.value_ =
      (triggeredX0.reinit symbolParser 5).1.lastValue_ ∧
    (triggeredX0.doEvalAtReinit_ = true →
      (triggeredX0.reinit symbolParser 5).1.value_ =
        ({ triggeredX0 with t_ := 5 } : Function).getEval symbolParser) ∧
    (triggeredX0.doEvalAtReinit_ = false → (triggeredX0.reinit symbolParser 5).1.value_ = 0) :=
  reinit_valid_state symbolParser triggeredX0 5 (by decide)

/-- C15: every value `reinit` sends on `derivativeOut` is 0.0; and on a valid instance
`reinit` sends exactly `valueOut` in mode 1, exactly `derivativeOut` in mode 2, exactly
`rateOut` in mode 3, and the three of them, once each, in every other mode. -/
theorem reinit_mode_policy (P : ParserOps) (f : Function) (T : ℚ) :
    (∀ v, Call.derivativeOut v ∈ (f.reinit P T).2 → v = 0) ∧
    (f.valid_ = true →
      (f.mode_ = 1 →
        (f.reinit P T).2.filter Call.isOutput = [Call.valueOut (f.reinit P T).1.value_]) ∧
      (f.mode_ = 2 → (f.reinit P T).2.filter Call.isOutput = [Call.derivativeOut 0]) ∧
      (f.mode_ = 3 →
        (f.reinit P T).2.filter Call.isOutput = [Call.rateOut (f.reinit P T).1.rate_]) ∧
      (f.mode_ ≠ 1 → f.mode_ ≠ 2 → f.mode_ ≠ 3 →
        (f.reinit P T).2.filter Call.isOutput =
          [Call.valueOut (f.reinit P T).1.value_, Call.derivativeOut 0,
            Call.rateOut (f.reinit P T).1.rate_])) := by
  constructor
  · intro v hmem
    by_cases h : (f.valid_ || f.parser_.GetExpr.isEmpty) = true
    · rw [reinit_run P f T h] at hmem
      simp only [List.mem_append] at hmem
      rcases hmem with hmem | hmem
      · split at hmem <;> simp at hmem
      · unfold Function.reinitRoute at hmem
        split at hmem <;> simp at hmem <;> exact hmem
    · simp [Function.reinit, h] at hmem
  · intro hv
    rw [reinit_run P f T (by simp [hv])]
    simp only [List.filter_append, reinitRoute_outputs]
    have hcalls : (if f.doEvalAtReinit_ then [Call.eval] else []).filter Call.isOutput = [] := by
      cases f.doEvalAtReinit_ <;> simp [Call.isOutput]
    rw [hcalls]
    refine ⟨fun h1 => ?_, fun h2 => ?_, fun h3 => ?_, fun h1 h2 h3 => ?_⟩
    · simp [h1]
    · simp [h2]
    · simp [h3]
    · simp [h1, h2, h3]

/-- C15 at a concrete input: in mode 0 `reinit` of the instance for `"x0"` holding 3.0
sends the value 0.0, the derivative 0.0 and the rate 0.0. -/
theorem reinit_mode_policy_witness :
    (allOutputs.reinit symbolParser 5).2 =
      [Call.valueOut 0, Call.derivativeOut 0, Call.rateOut 0] ∧
    (allOutputs.reinit symbolParser 5).2.filter Call.isOutput =
      [Call.valueOut (allOutputs.reinit symbolParser 5).1.value_, Call.derivativeOut 0,
        Call.rateOut (allOutputs.reinit symbolParser 5).1.rate_] :=
  ⟨by decide,
    ((reinit_mode_policy symbolParser allOutputs 5).2 (by decide)).2.2.2
      (by decide) (by decide) (by decide)⟩

/-- C16 as stated fails: with `useTrigger` and `doEvalAtReinit` set, `reinit` of the
instance for `"x0"` holding -1.0 establishes the value -1.0, below the threshold 0.0, and
sends it on `valueOut`. -/
theorem reinit_fires_below_threshold :
    triggeredX0.valid_ = true ∧
    triggeredX0.useTrigger_ = true ∧
    triggeredX0.doEvalAtReinit_ = true ∧
    (triggeredX0.reinit symbolParser 0).1.value_ = -1 ∧
    (triggeredX0.reinit symbolParser 0).2 = [Call.eval, Call.valueOut (-1)] := by
  decide

/-- C16, amended: the trigger plays no part in `reinit`: the state and the calls are the
same for both settings of `useTrigger` (but for the flag itself), and on a valid instance
`reinit` sends on at least one output port, the ports being chosen by the mode alone. -/
theorem reinit_ignores_trigger (P : ParserOps) (f : Function) (T : ℚ) (b : Bool) :
    (({ f with useTrigger_ := b } : Function).reinit P T).2 = (f.reinit P T).2 ∧
    (({ f with useTrigger_ := b } : Function).reinit P T).1 =
      { (f.reinit P T).1 with useTrigger_ := b } ∧
    (f.valid_ = true → (f.reinit P T).2.filter Call.isOutput ≠ []) := by
  have hstate : (({ f with useTrigger_ := b } : Function).reinit P T).2 = (f.reinit P T).2 ∧
      (({ f with useTrigger_ := b } : Function).reinit P T).1 =
        { (f.reinit P T).1 with useTrigger_ := b } := by
    by_cases h : (f.valid_ || f.parser_.GetExpr.isEmpty) = true
    · have h2 : (({ f with useTrigger_ := b } : Function).valid_ ||
          ({ f with useTrigger_ := b } : Function).parser_.GetExpr.isEmpty) = true := h
      rw [reinit_run P f T h, reinit_run P _ T h2]
      exact ⟨rfl, rfl⟩
    · have h2 : ¬ (({ f with useTrigger_ := b } : Function).valid_ ||
          ({ f with useTrigger_ := b } : Function).parser_.GetExpr.isEmpty) = true := h
      unfold Function.reinit
      simp only [Bool.not_eq_true] at h h2
      rw [h]
      exact ⟨rfl, rfl⟩
  refine ⟨hstate.1, hstate.2, ?_⟩
  · intro hv
    rw [reinit_run P f T (by simp [hv])]
    simp only [List.filter_append, reinitRoute_outputs]
    intro h
    revert h
    split_ifs <;> simp

/-! ## Two ticks in succession -/

theorem digitChar_decode (d : Nat) (h : d < 10) : (Nat.digitChar d).toNat - 48 = d := by
  interval_cases d <;> rfl

theorem toDigitsCore_decode :
    ∀ (fuel n : Nat) (ds : List Char), n < fuel →
      ∃ L, Nat.toDigitsCore 10 fuel n ds = L ++ ds ∧ decodeDigits L = n := by
  intro fuel
  induction fuel with
  | zero => intro n ds h; omega
  | succ k ih =>
    intro n ds h
    unfold Nat.toDigitsCore
    by_cases h0 : n / 10 = 0
    · refine ⟨[Nat.digitChar (n % 10)], by simp [h0], ?_⟩
      have hn : n % 10 = n := by omega
      have hlt : n < 10 := by omega
      simp [decodeDigits, hn, digitChar_decode n hlt]
    · obtain ⟨L, hL, hd⟩ := ih (n / 10) (Nat.digitChar (n % 10) :: ds) (by omega)
      refine ⟨L ++ [Nat.digitChar (n % 10)], by simp [h0, hL], ?_⟩
      unfold decodeDigits at hd ⊢
      rw [List.foldl_append, hd]
      simp [digitChar_decode (n % 10) (Nat.mod_lt _ (by omega))]
      omega

/-- The decimal digits of a number spell that number. -/
theorem decodeDigits_toString (n : Nat) : decodeDigits (toString n).data = n := by
  obtain ⟨L, hL, hd⟩ := toDigitsCore_decode (n + 1) n [] (by omega)
  have hdata : (toString n).data = L := by
    show (Nat.repr n).data = L
    simp [Nat.repr, Nat.toDigits, hL, List.asString]
  rw [hdata, hd]

theorem toString_nat_injective (n m : Nat) (h : toString n = toString m) : n = m := by
  rw [← decodeDigits_toString n, ← decodeDigits_toString m, h]

/-- Two pulled slots of different index have different names. -/
theorem yName_injective (i j : Nat) (h : yName i = yName j) : i = j := by
  apply toString_nat_injective
  have hdata := congrArg String.data h
  simp only [yName, String.data_append] at hdata
  exact String.ext (List.append_cancel_left hdata)

theorem yName_ne_t (i : Nat) : yName i ≠ "t" := by
  intro h
  have hdata := congrArg String.data h
  simp [yName] at hdata

/-! ## Lemmas on the steps of `innerSetExpr` -/

theorem mapFind_isSome_mapSet {β : Type} (m : List (String × β)) (key other : String) (v : β)
    (h : (mapFind m other).isSome = true) : (mapFind (mapSet m key v) other).isSome = true := by
  by_cases hk : other = key
  · rw [hk, mapFind_mapSet_self]
    rfl
  · rw [mapFind_mapSet_ne m key other v hk]
    exact h

theorem mapSet_eq_self {β : Type} (m : List (String × β)) (key : String) (v : β)
    (h : mapFind m key = some v) : mapSet m key v = m := by
  induction m with
  | nil => simp [mapFind] at h
  | cons kv m ih =>
    obtain ⟨k, w⟩ := kv
    by_cases hk : k = key
    · simp only [mapFind, hk, if_true, Option.some.injEq] at h
      simp [mapSet, hk, h]
    · simp only [mapFind, hk, if_false] at h
      simp [mapSet, hk, ih h]

theorem set_eq_self {α : Type} (l : List α) (i : Nat) (a : α) (h : l[i]? = some a) :
    l.set i a = l := by
  induction l generalizing i with
  | nil => rfl
  | cons b l ih =>
    cases i with
    | zero =>
      simp only [List.getElem?_cons_zero, Option.some.injEq] at h
      simp [h]
    | succ j =>
      simp only [List.getElem?_cons_succ] at h
      simp [ih j h]

/-- The loop of `addXByIndex` writes the input slots and the table only. -/
theorem addXByIndexLoop_frame (name : String) (index : Nat) :
    ∀ (fuel i : Nat) (f : Function),
      Function.addXByIndexLoop name index fuel i f =
        { f with xs_ := (Function.addXByIndexLoop name index fuel i f).xs_,
                 varIndex_ := (Function.addXByIndexLoop name index fuel i f).varIndex_ } := by
  intro fuel
  induction fuel with
  | zero => intro i f; rfl
  | succ n ih =>
    intro i f
    by_cases hi : i ≤ index
    · rw [Function.addXByIndexLoop, if_pos hi]
      simp only []
      rw [ih]
    · simp [Function.addXByIndexLoop, hi]

theorem addXByIndex_registered (f : Function) (i : Nat)
    (h : f.symbolExists (xName i) = true) : f.addXByIndex i = f := by
  simp [Function.addXByIndex, h]

/-- What `addXByIndex` writes when the name is not registered: slots appended, one entry
of the table, the symbol linked, the count of the table. -/
theorem addXByIndex_unregistered (f : Function) (i : Nat)
    (h : f.symbolExists (xName i) = false) :
    ∃ (xs : List Variable) (v : Nat),
      f.addXByIndex i =
        { f with xs_ := f.xs_ ++ xs,
                 varIndex_ := mapSet f.varIndex_ (xName i) v,
                 parser_ := f.parser_.DefineVar (xName i) (CellRef.x i),
                 numVar_ := (mapSet f.varIndex_ (xName i) v).length } := by
  by_cases hl : f.xs_.length ≤ i
  · have hx := addXByIndexLoop_xs (xName i) i (i + 1 - f.xs_.length) f.xs_.length f
      (Nat.le_refl _)
    have hv := addXByIndexLoop_varIndex (xName i) i (i + 1 - f.xs_.length) f.xs_.length f hl
      (Nat.le_refl _)
    have hf := addXByIndexLoop_frame (xName i) i (i + 1 - f.xs_.length) f.xs_.length f
    refine ⟨(List.range' f.xs_.length (i + 1 - f.xs_.length)).map
      (fun k => Variable.new (xName k)),
      (f.xs_ ++ (List.range' f.xs_.length (i + 1 - f.xs_.length)).map
        (fun k => Variable.new (xName k))).length - 1, ?_⟩
    simp only [Function.addXByIndex, h, Bool.false_eq_true, if_false, ge_iff_le, hl, if_true]
    rw [hf, hx, hv]
    simp only [mapSet_mapSet]
  · refine ⟨[], f.xs_.length - 1, ?_⟩
    simp [Function.addXByIndex, h, hl]

theorem addXByIndex_symbolExists_self (f : Function) (i : Nat) :
    (f.addXByIndex i).symbolExists (xName i) = true := by
  cases h : f.symbolExists (xName i) with
  | true => rw [addXByIndex_registered f i h]; exact h
  | false =>
    obtain ⟨xs, v, hf⟩ := addXByIndex_unregistered f i h
    rw [hf]
    simp [Function.symbolExists, mapFind_mapSet_self]

theorem addXByIndex_symbolExists_mono (f : Function) (i : Nat) (n : String)
    (hn : f.symbolExists n = true) : (f.addXByIndex i).symbolExists n = true := by
  cases h : f.symbolExists (xName i) with
  | true => rw [addXByIndex_registered f i h]; exact hn
  | false =>
    obtain ⟨xs, v, hf⟩ := addXByIndex_unregistered f i h
    rw [hf]
    exact mapFind_isSome_mapSet _ _ _ _ hn

theorem addXByIndex_xs_kept (f : Function) (i : Nat) : f.xs_ <+: (f.addXByIndex i).xs_ := by
  cases h : f.symbolExists (xName i) with
  | true => rw [addXByIndex_registered f i h]
  | false =>
    obtain ⟨xs, v, hf⟩ := addXByIndex_unregistered f i h
    rw [hf]
    exact List.prefix_append _ _

theorem addXByIndex_ys (f : Function) (i : Nat) : (f.addXByIndex i).ys_ = f.ys_ := by
  cases h : f.symbolExists (xName i) with
  | true => rw [addXByIndex_registered f i h]
  | false =>
    obtain ⟨xs, v, hf⟩ := addXByIndex_unregistered f i h
    rw [hf]

/-- One turn of the loop over the names `x<n>`: when the loop returns, `stoul` returned an
index for the first name and the loop went on from the state `addXByIndex` left. -/
theorem addXs_cons (f g : Function) (x : String) (xs : List String)
    (h : f.addXs (x :: xs) = Except.ok g) :
    ∃ i, stoulIndex x = Except.ok i ∧ (f.addXByIndex i).addXs xs = Except.ok g := by
  unfold Function.addXs at h
  cases hi : stoulIndex x with
  | error e => rw [hi] at h; exact absurd h (by simp)
  | ok i => rw [hi] at h; exact ⟨i, rfl, h⟩

/-- The loop over the names `x<n>` returns when `stoul` returns for each name. -/
theorem addXs_returns (xs : List String) :
    ∀ (f : Function), (∀ x ∈ xs, ∃ i, stoulIndex x = Except.ok i) →
      ∃ g, f.addXs xs = Except.ok g := by
  induction xs with
  | nil => intro f _; exact ⟨f, rfl⟩
  | cons y xs ih =>
    intro f h
    obtain ⟨i, hi⟩ := h y (by simp)
    obtain ⟨g, hg⟩ := ih (f.addXByIndex i) (fun x hx => h x (by simp [hx]))
    exact ⟨g, by rw [Function.addXs, hi]; exact hg⟩

theorem addXs_symbolExists_mono (xs : List String) :
    ∀ (f g : Function) (n : String), f.addXs xs = Except.ok g → f.symbolExists n = true →
      g.symbolExists n = true := by
  induction xs with
  | nil =>
    intro f g n hg h
    simp only [Function.addXs, Except.ok.injEq] at hg
    rw [← hg]; exact h
  | cons x xs ih =>
    intro f g n hg h
    obtain ⟨i, _, hi⟩ := addXs_cons f g x xs hg
    exact ih (f.addXByIndex i) g n hi (addXByIndex_symbolExists_mono f _ n h)

/-- After the loop over the names `x<n>` of the text each of them is registered, under the
index `stoul` returned for it. -/
theorem addXs_registers (xs : List String) :
    ∀ (f g : Function), f.addXs xs = Except.ok g →
      ∀ x ∈ xs, ∃ i, stoulIndex x = Except.ok i ∧ g.symbolExists (xName i) = true := by
  induction xs with
  | nil => intro f g _ x hx; simp at hx
  | cons y xs ih =>
    intro f g hg x hx
    obtain ⟨i, hi, hrest⟩ := addXs_cons f g y xs hg
    rcases List.mem_cons.mp hx with h | h
    · subst h
      exact ⟨i, hi, addXs_symbolExists_mono xs _ g _ hrest (addXByIndex_symbolExists_self f _)⟩
    · exact ih (f.addXByIndex i) g hrest x h

theorem addXs_fixed (xs : List String) :
    ∀ (f : Function),
      (∀ x ∈ xs, ∃ i, stoulIndex x = Except.ok i ∧ f.symbolExists (xName i) = true) →
      f.addXs xs = Except.ok f := by
  induction xs with
  | nil => intro f _; rfl
  | cons y xs ih =>
    intro f h
    obtain ⟨i, hi, hreg⟩ := h y (by simp)
    rw [Function.addXs, hi]
    simp only []
    rw [addXByIndex_registered f _ hreg]
    exact ih f (fun x hx => h x (by simp [hx]))

theorem addXs_xs_kept (xs : List String) :
    ∀ (f g : Function), f.addXs xs = Except.ok g → f.xs_ <+: g.xs_ := by
  induction xs with
  | nil =>
    intro f g hg
    simp only [Function.addXs, Except.ok.injEq] at hg
    rw [← hg]
  | cons y xs ih =>
    intro f g hg
    obtain ⟨i, _, hrest⟩ := addXs_cons f g y xs hg
    exact (addXByIndex_xs_kept f _).trans (ih (f.addXByIndex i) g hrest)

theorem addXs_ys (xs : List String) :
    ∀ (f g : Function), f.addXs xs = Except.ok g → g.ys_ = f.ys_ := by
  induction xs with
  | nil =>
    intro f g hg
    simp only [Function.addXs, Except.ok.injEq] at hg
    rw [← hg]
  | cons y xs ih =>
    intro f g hg
    obtain ⟨i, _, hrest⟩ := addXs_cons f g y xs hg
    exact (ih (f.addXByIndex i) g hrest).trans (addXByIndex_ys f _)

/-- The member `addY` writes the pulled cells and links one symbol. -/
theorem addY_frame (f : Function) (j : Nat) :
    f.addY j =
      { f with ys_ := (f.addY j).ys_,
               parser_ := f.parser_.DefineVar (yName j) (CellRef.y j) } := by
  by_cases h : j ≥ f.ys_.length <;> simp [Function.addY, h]

theorem addY_bound_self (f : Function) (i : Nat) :
    (f.addY i).ys_[i]? = some (some 0) ∧
    mapFind (f.addY i).parser_.vars_ (yName i) = some (CellRef.y i) := by
  refine ⟨(addY_cells f i).2.1, ?_⟩
  rw [addY_frame]
  simp [MooseParser.DefineVar, mapFind_mapSet_self]

theorem addY_bound_mono (f : Function) (i j : Nat)
    (h : f.ys_[i]? = some (some 0) ∧ mapFind f.parser_.vars_ (yName i) = some (CellRef.y i)) :
    (f.addY j).ys_[i]? = some (some 0) ∧
    mapFind (f.addY j).parser_.vars_ (yName i) = some (CellRef.y i) := by
  by_cases hij : i = j
  · subst hij
    exact addY_bound_self f i
  · have hlt : i < f.ys_.length := by
      obtain ⟨hlt, _⟩ := List.getElem?_eq_some.mp h.1
      exact hlt
    refine ⟨((addY_cells f j).2.2.1 i hlt hij).trans h.1, ?_⟩
    rw [addY_frame]
    have hne : yName i ≠ yName j := fun hn => hij (yName_injective i j hn)
    simp only [MooseParser.DefineVar]
    rw [mapFind_mapSet_ne _ _ _ _ hne]
    exact h.2

theorem addY_fixed (f : Function) (i : Nat)
    (h : f.ys_[i]? = some (some 0) ∧ mapFind f.parser_.vars_ (yName i) = some (CellRef.y i)) :
    f.addY i = f := by
  have hlt : i < f.ys_.length := by
    obtain ⟨hlt, _⟩ := List.getElem?_eq_some.mp h.1
    exact hlt
  have hge : ¬ i ≥ f.ys_.length := by omega
  simp only [Function.addY, hge, if_false, MooseParser.DefineVar]
  rw [set_eq_self f.ys_ i (some 0) h.1, mapSet_eq_self _ _ _ h.2]

/-- One turn of the loop over the names `y<n>`: when the loop returns, `stoul` returned an
index for the first name and the loop went on from the state `addY` left. -/
theorem addYs_cons (f g : Function) (y : String) (ys : List String)
    (h : f.addYs (y :: ys) = Except.ok g) :
    ∃ i, stoulIndex y = Except.ok i ∧ (f.addY i).addYs ys = Except.ok g := by
  unfold Function.addYs at h
  cases hi : stoulIndex y with
  | error e => rw [hi] at h; exact absurd h (by simp)
  | ok i => rw [hi] at h; exact ⟨i, rfl, h⟩

/-- The loop over the names `y<n>` returns when `stoul` returns for each name. -/
theorem addYs_returns (ys : List String) :
    ∀ (f : Function), (∀ y ∈ ys, ∃ i, stoulIndex y = Except.ok i) →
      ∃ g, f.addYs ys = Except.ok g := by
  induction ys with
  | nil => intro f _; exact ⟨f, rfl⟩
  | cons z ys ih =>
    intro f h
    obtain ⟨i, hi⟩ := h z (by simp)
    obtain ⟨g, hg⟩ := ih (f.addY i) (fun y hy => h y (by simp [hy]))
    exact ⟨g, by rw [Function.addYs, hi]; exact hg⟩

theorem addYs_bound_mono (ys : List String) :
    ∀ (f g : Function) (i : Nat), f.addYs ys = Except.ok g →
      (f.ys_[i]? = some (some 0) ∧ mapFind f.parser_.vars_ (yName i) = some (CellRef.y i)) →
      (g.ys_[i]? = some (some 0) ∧
        mapFind g.parser_.vars_ (yName i) = some (CellRef.y i)) := by
  induction ys with
  | nil =>
    intro f g i hg h
    simp only [Function.addYs, Except.ok.injEq] at hg
    rw [← hg]; exact h
  | cons y ys ih =>
    intro f g i hg h
    obtain ⟨j, _, hrest⟩ := addYs_cons f g y ys hg
    exact ih (f.addY j) g i hrest (addY_bound_mono f i _ h)

/-- After the loop over the names `y<n>` of the text each of them has a cell holding 0.0 and
its symbol linked to that cell, under the index `stoul` returned for it. -/
theorem addYs_bound (ys : List String) :
    ∀ (f g : Function), f.addYs ys = Except.ok g → ∀ y ∈ ys,
      ∃ i, stoulIndex y = Except.ok i ∧
        g.ys_[i]? = some (some 0) ∧
        mapFind g.parser_.vars_ (yName i) = some (CellRef.y i) := by
  induction ys with
  | nil => intro f g _ y hy; simp at hy
  | cons z ys ih =>
    intro f g hg y hy
    obtain ⟨i, hi, hrest⟩ := addYs_cons f g z ys hg
    rcases List.mem_cons.mp hy with h | h
    · subst h
      exact ⟨i, hi, addYs_bound_mono ys _ g _ hrest (addY_bound_self f _)⟩
    · exact ih (f.addY i) g hrest y h

theorem addYs_fixed (ys : List String) :
    ∀ (f : Function),
      (∀ y ∈ ys, ∃ i, stoulIndex y = Except.ok i ∧ f.ys_[i]? = some (some 0) ∧
        mapFind f.parser_.vars_ (yName i) = some (CellRef.y i)) →
      f.addYs ys = Except.ok f := by
  induction ys with
  | nil => intro f _; rfl
  | cons z ys ih =>
    intro f h
    obtain ⟨i, hi, hb⟩ := h z (by simp)
    rw [Function.addYs, hi]
    simp only []
    rw [addY_fixed f _ hb]
    exact ih f (fun y hy => h y (by simp [hy]))

/-- The loop over the names `y<n>` leaves the input slots, the table and the flags as they
are, and does not shorten the pulled slots. -/
theorem addYs_frame (ys : List String) :
    ∀ (f g : Function), f.addYs ys = Except.ok g →
      g.xs_ = f.xs_ ∧ g.varIndex_ = f.varIndex_ ∧
      g.numVar_ = f.numVar_ ∧
      g.allowUnknownVar_ = f.allowUnknownVar_ ∧
      g.parser_.consts_ = f.parser_.consts_ ∧
      f.ys_.length ≤ g.ys_.length := by
  induction ys with
  | nil =>
    intro f g hg
    simp only [Function.addYs, Except.ok.injEq] at hg
    rw [← hg]
    exact ⟨rfl, rfl, rfl, rfl, rfl, Nat.le_refl _⟩
  | cons z ys ih =>
    intro f g hg
    obtain ⟨i, _, hrest⟩ := addYs_cons f g z ys hg
    obtain ⟨h1, h2, h3, h4, h5, h6⟩ := ih (f.addY i) g hrest
    have hs := addY_cells f i
    have hf := addY_frame f i
    refine ⟨h1.trans hs.2.2.2.1, h2.trans hs.2.2.2.2.1, h3.trans hs.2.2.2.2.2, ?_, ?_, ?_⟩
    · rw [h4, hf]
    · rw [h5, hf]
      rfl
    · have hlen := hs.1
      omega

/-- The call `addVariable("t")` never throws: it links the time symbol, unless unknown
names are allowed and `t` is a constant of the parser. -/
theorem addVariable_t (f : Function) :
    f.addVariable "t" =
      Except.ok (if (f.allowUnknownVar_ && f.parser_.IsConst "t") = true then f
        else { f with parser_ := f.parser_.DefineVar "t" CellRef.t }) := by
  have hx : matchesIndexed 'x' "t" = false := by decide
  have hy : matchesIndexed 'y' "t" = false := by decide
  have hc : matchesIndexed 'c' "t" = false := by decide
  unfold Function.addVariable Function.getVarType
  simp only [hx, hy, hc, Bool.false_eq_true, if_false]
  cases hb : (f.allowUnknownVar_ && f.parser_.IsConst "t") <;> simp

/-- One unknown-symbol step of the compile call: either nothing changes, the symbol being
known to the parser or registered in the table, or the symbol is neither and one input
slot of that name is appended, registered and linked. -/
theorem resolveStep_cases (g : Function) (n : String) :
    ((if g.parser_.isDefined n then g else g.callbackAddSymbol n) = g ∧
      (g.parser_.isDefined n = true ∨ g.symbolExists n = true)) ∨
    (g.parser_.isDefined n = false ∧ g.symbolExists n = false ∧
      (if g.parser_.isDefined n then g else g.callbackAddSymbol n) =
        { g with xs_ := g.xs_ ++ [Variable.new n],
                 parser_ := g.parser_.DefineVar n (CellRef.x g.xs_.length),
                 varIndex_ := mapSet g.varIndex_ n g.xs_.length,
                 numVar_ := (mapSet g.varIndex_ n g.xs_.length).length }) := by
  cases hd : g.parser_.isDefined n with
  | true => exact Or.inl ⟨by simp, Or.inl rfl⟩
  | false =>
    cases hs : g.symbolExists n with
    | true =>
      refine Or.inl ⟨?_, Or.inr rfl⟩
      have hsome : (mapFind g.varIndex_ n).isSome = true := hs
      obtain ⟨v, hv⟩ := Option.isSome_iff_exists.mp hsome
      simp [Function.callbackAddSymbol, hv]
    | false =>
      refine Or.inr ⟨rfl, rfl, ?_⟩
      have hnone : mapFind g.varIndex_ n = none := by
        simpa [Function.symbolExists] using hs
      simp [Function.callbackAddSymbol, hnone, Function.addXByName, hs]

/-- What one unknown-symbol step keeps: the input slots as a prefix, the pulled cells, the
flag and the constants, every link of the parser, every registered name and every symbol
the parser knows. -/
theorem resolveStep_keeps (g : Function) (n : String) :
    g.xs_ <+: (if g.parser_.isDefined n then g else g.callbackAddSymbol n).xs_ ∧
    (if g.parser_.isDefined n then g else g.callbackAddSymbol n).ys_ = g.ys_ ∧
    (if g.parser_.isDefined n then g else g.callbackAddSymbol n).allowUnknownVar_ =
      g.allowUnknownVar_ ∧
    (if g.parser_.isDefined n then g else g.callbackAddSymbol n).parser_.consts_ =
      g.parser_.consts_ ∧
    (∀ k c, mapFind g.parser_.vars_ k = some c →
      mapFind (if g.parser_.isDefined n then g else g.callbackAddSymbol n).parser_.vars_ k =
        some c) ∧
    (∀ m, g.symbolExists m = true →
      (if g.parser_.isDefined n then g else g.callbackAddSymbol n).symbolExists m = true) ∧
    (∀ m, g.parser_.isDefined m = true →
      (if g.parser_.isDefined n then g else g.callbackAddSymbol n).parser_.isDefined m =
        true) := by
  rcases resolveStep_cases g n with ⟨heq, _⟩ | ⟨hd, _, heq⟩
  · rw [heq]
    exact ⟨ List.prefix_refl _, rfl, rfl, rfl, fun _ _ h => h, fun _ h => h, fun _ h => h⟩
  · rw [heq]
    have hnone : mapFind g.parser_.vars_ n = none := by
      have hd2 : ((mapFind g.parser_.vars_ n).isSome || g.parser_.IsConst n) = false := hd
      rw [Bool.or_eq_false_iff] at hd2
      simpa using hd2.1
    refine ⟨ List.prefix_append _ _, rfl, rfl, rfl, ?_, ?_, ?_⟩
    · intro k c hk
      have hne : k ≠ n := by
        intro hkn
        rw [hkn, hnone] at hk
        exact absurd hk (by simp)
      simp only [MooseParser.DefineVar]
      rw [mapFind_mapSet_ne _ _ _ _ hne]
      exact hk
    · intro m hm
      exact mapFind_isSome_mapSet _ _ _ _ hm
    · intro m hm
      have hm2 : ((mapFind g.parser_.vars_ m).isSome || g.parser_.IsConst m) = true := hm
      show ((mapFind (mapSet g.parser_.vars_ n (CellRef.x g.xs_.length)) m).isSome ||
        g.parser_.IsConst m) = true
      rw [Bool.or_eq_true] at hm2 ⊢
      rcases hm2 with h | h
      · exact Or.inl (mapFind_isSome_mapSet _ _ _ _ h)
      · exact Or.inr h

/-- After one unknown-symbol step the symbol is known to the parser or registered. -/
theorem resolveStep_known (g : Function) (n : String) :
    (if g.parser_.isDefined n then g else g.callbackAddSymbol n).parser_.isDefined n = true ∨
    (if g.parser_.isDefined n then g else g.callbackAddSymbol n).symbolExists n = true := by
  rcases resolveStep_cases g n with ⟨heq, h⟩ | ⟨_, _, heq⟩
  · rw [heq]
    exact h
  · rw [heq]
    exact Or.inr (by simp [Function.symbolExists, mapFind_mapSet_self])

theorem resolveStep_fixed (g : Function) (n : String)
    (h : g.parser_.isDefined n = true ∨ g.symbolExists n = true) :
    (if g.parser_.isDefined n then g else g.callbackAddSymbol n) = g := by
  rcases resolveStep_cases g n with ⟨heq, _⟩ | ⟨hd, hs, _⟩
  · exact heq
  · rcases h with h | h
    · rw [hd] at h
      exact absurd h (by simp)
    · rw [hs] at h
      exact absurd h (by simp)

theorem resolveUnknown_keeps (symbols : List String) :
    ∀ (g : Function),
      g.xs_ <+: (g.resolveUnknown symbols).xs_ ∧
      (g.resolveUnknown symbols).ys_ = g.ys_ ∧
      (g.resolveUnknown symbols).allowUnknownVar_ = g.allowUnknownVar_ ∧
      (g.resolveUnknown symbols).parser_.consts_ = g.parser_.consts_ ∧
      (∀ k c, mapFind g.parser_.vars_ k = some c →
        mapFind (g.resolveUnknown symbols).parser_.vars_ k = some c) ∧
      (∀ m, g.symbolExists m = true → (g.resolveUnknown symbols).symbolExists m = true) ∧
      (∀ m, g.parser_.isDefined m = true →
        (g.resolveUnknown symbols).parser_.isDefined m = true) := by
  induction symbols with
  | nil =>
    intro g
    exact ⟨ List.prefix_refl _, rfl, rfl, rfl, fun _ _ h => h, fun _ h => h, fun _ h => h⟩
  | cons n ns ih =>
    intro g
    obtain ⟨a1, a2, a3, a4, a5, a6, a7⟩ := resolveStep_keeps g n
    obtain ⟨b1, b2, b3, b4, b5, b6, b7⟩ :=
      ih (if g.parser_.isDefined n then g else g.callbackAddSymbol n)
    exact ⟨a1.trans b1, b2.trans a2, b3.trans a3, b4.trans a4,
      fun k c h => b5 k c (a5 k c h), fun m h => b6 m (a6 m h), fun m h => b7 m (a7 m h)⟩

/-- After the unknown-symbol steps every symbol read is known to the parser or
registered. -/
theorem resolveUnknown_known (symbols : List String) :
    ∀ (g : Function), ∀ n ∈ symbols,
      (g.resolveUnknown symbols).parser_.isDefined n = true ∨
      (g.resolveUnknown symbols).symbolExists n = true := by
  induction symbols with
  | nil => intro g n hn; simp at hn
  | cons m ns ih =>
    intro g n hn
    rcases List.mem_cons.mp hn with h | h
    · subst h
      obtain ⟨_, _, _, _, _, b6, b7⟩ :=
        resolveUnknown_keeps ns (if g.parser_.isDefined n then g else g.callbackAddSymbol n)
      rcases resolveStep_known g n with hk | hk
      · exact Or.inl (b7 n hk)
      · exact Or.inr (b6 n hk)
    · exact ih (if g.parser_.isDefined m then g else g.callbackAddSymbol m) n h

theorem resolveUnknown_fixed (symbols : List String) :
    ∀ (g : Function),
      (∀ n ∈ symbols, g.parser_.isDefined n = true ∨ g.symbolExists n = true) →
      g.resolveUnknown symbols = g := by
  induction symbols with
  | nil => intro g _; rfl
  | cons m ns ih =>
    intro g h
    show (if g.parser_.isDefined m then g else g.callbackAddSymbol m).resolveUnknown ns = g
    rw [resolveStep_fixed g m (h m (by simp))]
    exact ih g (fun n hn => h n (by simp [hn]))

/-! ## `innerSetExpr` and `setExpr` -/

theorem addXs_flags (xs : List String) :
    ∀ (f g : Function), f.addXs xs = Except.ok g →
      g.allowUnknownVar_ = f.allowUnknownVar_ ∧
      g.parser_.consts_ = f.parser_.consts_ := by
  induction xs with
  | nil =>
    intro f g hg
    simp only [Function.addXs, Except.ok.injEq] at hg
    rw [← hg]
    exact ⟨rfl, rfl⟩
  | cons y xs ih =>
    intro f g hg
    obtain ⟨i, _, hrest⟩ := addXs_cons f g y xs hg
    obtain ⟨h1, h2⟩ := ih (f.addXByIndex i) g hrest
    have hstep : (f.addXByIndex i).allowUnknownVar_ = f.allowUnknownVar_ ∧
        (f.addXByIndex i).parser_.consts_ = f.parser_.consts_ := by
      cases h : f.symbolExists (xName i) with
      | true => rw [addXByIndex_registered f _ h]; exact ⟨rfl, rfl⟩
      | false =>
        obtain ⟨zs, v, hf⟩ := addXByIndex_unregistered f _ h
        rw [hf]
        exact ⟨rfl, rfl⟩
    exact ⟨h1.trans hstep.1, h2.trans hstep.2⟩

/-- The run of `innerSetExpr` once its two loops have returned (`stoul` threw for no name):
it returns the state `f4` reached before the compile call, with the text stored in the
parser, and the outcome of compiling the text against the tables of `f4`. The state `f4`
keeps the input slots of `f` as a prefix, has at least as many pulled slots, keeps every
registered name, has every name `x<n>` of the text registered, every name `y<n>` of the
text with a cell holding 0.0 linked to its symbol, the time symbol linked unless it is a
constant, and, when unknown names are allowed, every symbol read known to the parser or
registered. -/
theorem innerSetExpr_after_loops (C : CompilerOps) (f f1 f2 : Function) (expr : String)
    (h1 : f.addXs (C.findXsYs expr).1 = Except.ok f1)
    (h2 : f1.addYs (C.findXsYs expr).2 = Except.ok f2) :
    ∃ f4 : Function,
      f.innerSetExpr C expr =
        Except.ok (({ f4 with parser_ := { f4.parser_ with expr_ := expr } } : Function),
          C.compile f4.parser_.vars_ f4.parser_.consts_ expr) ∧
      f.xs_ <+: f4.xs_ ∧
      f.ys_.length ≤ f4.ys_.length ∧
      (∀ m, f.symbolExists m = true → f4.symbolExists m = true) ∧
      (∀ x ∈ (C.findXsYs expr).1,
        ∃ i, stoulIndex x = Except.ok i ∧ f4.symbolExists (xName i) = true) ∧
      (∀ y ∈ (C.findXsYs expr).2,
        ∃ i, stoulIndex y = Except.ok i ∧
          f4.ys_[i]? = some (some 0) ∧
          mapFind f4.parser_.vars_ (yName i) = some (CellRef.y i)) ∧
      ((f4.allowUnknownVar_ && f4.parser_.IsConst "t") = false →
        mapFind f4.parser_.vars_ "t" = some CellRef.t) ∧
      (f4.allowUnknownVar_ = true →
        ∀ n ∈ C.symbols expr, f4.parser_.isDefined n = true ∨ f4.symbolExists n = true) ∧
      f4.allowUnknownVar_ = f.allowUnknownVar_ := by
  -- the state after the two loops
  have hx1 := addXs_xs_kept (C.findXsYs expr).1 f f1 h1
  have hx2 := addXs_ys (C.findXsYs expr).1 f f1 h1
  have hx3 := addXs_registers (C.findXsYs expr).1 f f1 h1
  have hx4 := addXs_flags (C.findXsYs expr).1 f f1 h1
  have hx5 := fun m => addXs_symbolExists_mono (C.findXsYs expr).1 f f1 m h1
  obtain ⟨hy1, hy2, _, hy4, hy5, hy6⟩ := addYs_frame (C.findXsYs expr).2 f1 f2 h2
  have hy7 := addYs_bound (C.findXsYs expr).2 f1 f2 h2
  have hsym2 : ∀ m, f1.symbolExists m = true → f2.symbolExists m = true := by
    intro m hm
    simpa [Function.symbolExists, hy2] using hm
  have hlen : f.ys_.length ≤ f2.ys_.length := by
    rw [hx2] at hy6
    exact hy6
  have hX2 : ∀ x ∈ (C.findXsYs expr).1,
      ∃ i, stoulIndex x = Except.ok i ∧ f2.symbolExists (xName i) = true := by
    intro x hx
    obtain ⟨i, hi, hr⟩ := hx3 x hx
    exact ⟨i, hi, hsym2 _ hr⟩
  -- the time symbol
  have hrun : f.innerSetExpr C expr =
      match f2.addVariable "t" with
      | Except.error e => Except.error e
      | Except.ok f3 =>
        if f3.allowUnknownVar_ then Except.ok (f3.SetExprWithUnknown C expr)
        else Except.ok ({ f3 with parser_ := (f3.parser_.SetExpr C expr).1 },
          (f3.parser_.SetExpr C expr).2) := by
    unfold Function.innerSetExpr
    simp only [h1, h2]
  rw [hrun, addVariable_t]
  simp only []
  by_cases hc : (f2.allowUnknownVar_ && f2.parser_.IsConst "t") = true
  · -- `t` is a constant and unknown names are allowed
    have ha : f2.allowUnknownVar_ = true := by
      rw [Bool.and_eq_true] at hc
      exact hc.1
    rw [if_pos hc, if_pos ha]
    obtain ⟨k1, k2, k3, k4, k5, k6, _⟩ := resolveUnknown_keeps (C.symbols expr) f2
    refine ⟨f2.resolveUnknown (C.symbols expr), rfl, ?_, ?_, ?_, ?_, ?_, ?_, ?_, ?_⟩
    · exact (hx1.trans (by rw [hy1])).trans k1
    · rw [k2]; exact hlen
    · exact fun m hm => k6 m (hsym2 m (hx5 m hm))
    · intro x hx
      obtain ⟨i, hi, hr⟩ := hX2 x hx
      exact ⟨i, hi, k6 _ hr⟩
    · intro y hy
      obtain ⟨i, hi, hb1, hb2⟩ := hy7 y hy
      rw [k2]
      exact ⟨i, hi, hb1, k5 _ _ hb2⟩
    · intro hfalse
      have hcontra : (f2.allowUnknownVar_ && f2.parser_.IsConst "t") = false := by
        simpa [MooseParser.IsConst, k3, k4] using hfalse
      rw [hc] at hcontra
      exact absurd hcontra (by simp)
    · exact fun _ => resolveUnknown_known (C.symbols expr) f2
    · rw [k3, hy4, hx4.1]
  · rw [if_neg hc]
    have htb : mapFind (f2.parser_.DefineVar "t" CellRef.t).vars_ "t" = some CellRef.t := by
      simp [MooseParser.DefineVar, mapFind_mapSet_self]
    have hyb : ∀ y ∈ (C.findXsYs expr).2,
        ∃ i, stoulIndex y = Except.ok i ∧ f2.ys_[i]? = some (some 0) ∧
          mapFind (f2.parser_.DefineVar "t" CellRef.t).vars_ (yName i) =
            some (CellRef.y i) := by
      intro y hy
      obtain ⟨i, hi, hb1, hb2⟩ := hy7 y hy
      refine ⟨i, hi, hb1, ?_⟩
      simp only [MooseParser.DefineVar]
      rw [mapFind_mapSet_ne _ _ _ _ (yName_ne_t _)]
      exact hb2
    by_cases ha : f2.allowUnknownVar_ = true
    · rw [if_pos ha]
      obtain ⟨k1, k2, k3, k4, k5, k6, _⟩ := resolveUnknown_keeps (C.symbols expr)
        ({ f2 with parser_ := f2.parser_.DefineVar "t" CellRef.t } : Function)
      refine ⟨({ f2 with parser_ := f2.parser_.DefineVar "t" CellRef.t } :
        Function).resolveUnknown (C.symbols expr), rfl, ?_, ?_, ?_, ?_, ?_, ?_, ?_, ?_⟩
      · exact (hx1.trans (by rw [hy1])).trans k1
      · rw [k2]; exact hlen
      · exact fun m hm => k6 m (hsym2 m (hx5 m hm))
      · intro x hx
        obtain ⟨i, hi, hr⟩ := hX2 x hx
        exact ⟨i, hi, k6 _ hr⟩
      · intro y hy
        obtain ⟨i, hi, hb1, hb2⟩ := hyb y hy
        rw [k2]
        exact ⟨i, hi, hb1, k5 _ _ hb2⟩
      · exact fun _ => k5 _ _ htb
      · exact fun _ => resolveUnknown_known (C.symbols expr) _
      · rw [k3]; show f2.allowUnknownVar_ = f.allowUnknownVar_; rw [hy4, hx4.1]
    · rw [if_neg ha]
      refine ⟨({ f2 with parser_ := f2.parser_.DefineVar "t" CellRef.t } : Function), rfl,
        ?_, ?_, ?_, ?_, ?_, ?_, ?_, ?_⟩
      · exact hx1.trans (by rw [hy1])
      · exact hlen
      · exact fun m hm => hsym2 m (hx5 m hm)
      · exact hX2
      · exact hyb
      · exact fun _ => htb
      · intro hcontra
        exact absurd hcontra ha
      · show f2.allowUnknownVar_ = f.allowUnknownVar_; rw [hy4, hx4.1]

/-- When `innerSetExpr` returns, its two loops returned. -/
theorem innerSetExpr_loops (C : CompilerOps) (f g : Function) (expr : String)
    (r : CompileResult) (hin : f.innerSetExpr C expr = Except.ok (g, r)) :
    ∃ f1 f2, f.addXs (C.findXsYs expr).1 = Except.ok f1 ∧
      f1.addYs (C.findXsYs expr).2 = Except.ok f2 := by
  unfold Function.innerSetExpr at hin
  cases h1 : f.addXs (C.findXsYs expr).1 with
  | error e => simp [h1] at hin
  | ok f1 =>
    cases h2 : f1.addYs (C.findXsYs expr).2 with
    | error e => simp [h1, h2] at hin
    | ok f2 => exact ⟨f1, f2, rfl, h2⟩

/-- The run of `innerSetExpr` when it returns: the state and the outcome it returns are
those of `innerSetExpr_after_loops`. -/
theorem innerSetExpr_run (C : CompilerOps) (f g : Function) (expr : String)
    (r : CompileResult) (hin : f.innerSetExpr C expr = Except.ok (g, r)) :
    ∃ f4 : Function,
      g = ({ f4 with parser_ := { f4.parser_ with expr_ := expr } } : Function) ∧
      r = C.compile f4.parser_.vars_ f4.parser_.consts_ expr ∧
      f.xs_ <+: f4.xs_ ∧
      f.ys_.length ≤ f4.ys_.length ∧
      (∀ m, f.symbolExists m = true → f4.symbolExists m = true) ∧
      (∀ x ∈ (C.findXsYs expr).1,
        ∃ i, stoulIndex x = Except.ok i ∧ f4.symbolExists (xName i) = true) ∧
      (∀ y ∈ (C.findXsYs expr).2,
        ∃ i, stoulIndex y = Except.ok i ∧
          f4.ys_[i]? = some (some 0) ∧
          mapFind f4.parser_.vars_ (yName i) = some (CellRef.y i)) ∧
      ((f4.allowUnknownVar_ && f4.parser_.IsConst "t") = false →
        mapFind f4.parser_.vars_ "t" = some CellRef.t) ∧
      (f4.allowUnknownVar_ = true →
        ∀ n ∈ C.symbols expr, f4.parser_.isDefined n = true ∨ f4.symbolExists n = true) ∧
      f4.allowUnknownVar_ = f.allowUnknownVar_ := by
  obtain ⟨f1, f2, h1, h2⟩ := innerSetExpr_loops C f g expr r hin
  obtain ⟨f4, hrun, hrest⟩ := innerSetExpr_after_loops C f f1 f2 expr h1 h2
  rw [hrun] at hin
  simp only [Except.ok.injEq, Prod.mk.injEq] at hin
  exact ⟨f4, hin.1.symm, hin.2.symm, hrest⟩

/-- The member `innerSetExpr` returns when `stoul` returns for every name `x<n>` and
`y<n>` of the text. -/
theorem innerSetExpr_returns (C : CompilerOps) (f : Function) (expr : String)
    (hx : ∀ x ∈ (C.findXsYs expr).1, ∃ i, stoulIndex x = Except.ok i)
    (hy : ∀ y ∈ (C.findXsYs expr).2, ∃ i, stoulIndex y = Except.ok i) :
    ∃ g r, f.innerSetExpr C expr = Except.ok (g, r) := by
  obtain ⟨f1, h1⟩ := addXs_returns _ f hx
  obtain ⟨f2, h2⟩ := addYs_returns _ f1 hy
  obtain ⟨f4, hrun, _⟩ := innerSetExpr_after_loops C f f1 f2 expr h1 h2
  exact ⟨_, _, hrun⟩

theorem parser_expr_eta (h : Function) (expr : String) (he : h.parser_.expr_ = expr) :
    ({ h with parser_ := { h.parser_ with expr_ := expr } } : Function) = h := by
  cases h with
  | mk v n l va r m u d a t i xs ys vi p =>
    cases p with
    | mk e vars consts =>
      simp only at he
      subst he
      rfl

theorem parser_defineVar_eta (h : Function) (name : String) (c : CellRef)
    (hb : mapFind h.parser_.vars_ name = some c) :
    ({ h with parser_ := h.parser_.DefineVar name c } : Function) = h := by
  cases h with
  | mk v n l va r m u d a t i xs ys vi p =>
    cases p with
    | mk e vars consts =>
      simp only at hb
      simp only [MooseParser.DefineVar, mapSet_eq_self vars name c hb]

/-- On a state that already has what `innerSetExpr` builds for a text (its names `x<n>`
registered, its names `y<n>` with a cell holding 0.0 linked, the time symbol linked, its
symbols known, and the text stored), `innerSetExpr` changes nothing and returns the
outcome of compiling the text against the tables of that state. -/
theorem innerSetExpr_again (C : CompilerOps) (h : Function) (expr : String)
    (hX : ∀ x ∈ (C.findXsYs expr).1,
      ∃ i, stoulIndex x = Except.ok i ∧ h.symbolExists (xName i) = true)
    (hY : ∀ y ∈ (C.findXsYs expr).2,
      ∃ i, stoulIndex y = Except.ok i ∧
        h.ys_[i]? = some (some 0) ∧
        mapFind h.parser_.vars_ (yName i) = some (CellRef.y i))
    (hT : (h.allowUnknownVar_ && h.parser_.IsConst "t") = false →
      mapFind h.parser_.vars_ "t" = some CellRef.t)
    (hS : h.allowUnknownVar_ = true →
      ∀ n ∈ C.symbols expr, h.parser_.isDefined n = true ∨ h.symbolExists n = true)
    (hE : h.parser_.expr_ = expr) :
    h.innerSetExpr C expr =
      Except.ok (h, C.compile h.parser_.vars_ h.parser_.consts_ expr) := by
  have e1 : h.addXs (C.findXsYs expr).1 = Except.ok h := addXs_fixed _ h hX
  have e2 : h.addYs (C.findXsYs expr).2 = Except.ok h := addYs_fixed _ h hY
  have e3 : h.addVariable "t" = Except.ok h := by
    rw [addVariable_t]
    by_cases hc : (h.allowUnknownVar_ && h.parser_.IsConst "t") = true
    · rw [if_pos hc]
    · rw [if_neg hc, parser_defineVar_eta h "t" CellRef.t (hT (by simpa using hc))]
  unfold Function.innerSetExpr
  simp only [e1, e2, e3]
  by_cases ha : h.allowUnknownVar_ = true
  · rw [if_pos ha]
    unfold Function.SetExprWithUnknown
    simp only [resolveUnknown_fixed _ h (hS ha), MooseParser.SetExpr, parser_expr_eta h expr hE]
  · rw [if_neg ha]
    simp only [MooseParser.SetExpr, parser_expr_eta h expr hE]

/-- What a call of `setExpr` that runs `innerSetExpr` returns: the state `innerSetExpr`
left, with `valid` true when the compile call returned true and false otherwise. -/
theorem setExpr_run (C : CompilerOps) (f g : Function) (text : String) (r : CompileResult)
    (he : (C.trim text).isEmpty = false)
    (hs : (f.valid_ && C.trim text == f.parser_.GetExpr) = false)
    (hin : f.innerSetExpr C (C.trim text) = Except.ok (g, r)) :
    f.setExpr C text =
      Except.ok ({ g with valid_ := decide (r = CompileResult.ok) } : Function) := by
  simp only [Function.setExpr, he, hs, hin, Bool.false_eq_true, if_false]
  cases r <;> rfl

/-- When `setExpr` returns, either it returned at one of its two first tests and the state
is the one it was called on, or `innerSetExpr` ran and returned. -/
theorem setExpr_cases (C : CompilerOps) (f g : Function) (text : String)
    (h : f.setExpr C text = Except.ok g) :
    (g = f ∧ ((C.trim text).isEmpty = true ∨
      (f.valid_ && C.trim text == f.parser_.GetExpr) = true)) ∨
    ((C.trim text).isEmpty = false ∧
      (f.valid_ && C.trim text == f.parser_.GetExpr) = false ∧
      ∃ g1 r, f.innerSetExpr C (C.trim text) = Except.ok (g1, r) ∧
        g = ({ g1 with valid_ := decide (r = CompileResult.ok) } : Function)) := by
  by_cases he : (C.trim text).isEmpty = true
  · left
    simp only [Function.setExpr, he, if_true, Except.ok.injEq] at h
    exact ⟨h.symm, Or.inl he⟩
  by_cases hs : (f.valid_ && C.trim text == f.parser_.GetExpr) = true
  · left
    simp only [Function.setExpr, he, hs, if_true, Bool.false_eq_true, if_false,
      Except.ok.injEq] at h
    exact ⟨h.symm, Or.inr hs⟩
  right
  have he2 : (C.trim text).isEmpty = false := by simpa using he
  have hs2 : (f.valid_ && C.trim text == f.parser_.GetExpr) = false := by simpa using hs
  refine ⟨he2, hs2, ?_⟩
  cases hin : f.innerSetExpr C (C.trim text) with
  | error e =>
    simp only [Function.setExpr, he2, hs2, hin, Bool.false_eq_true, if_false] at h
    exact absurd h (by simp)
  | ok p =>
    obtain ⟨g1, r⟩ := p
    rw [setExpr_run C f g1 text r he2 hs2 hin, Except.ok.injEq] at h
    exact ⟨g1, r, rfl, h.symm⟩

/-- The member `setExpr` returns when `stoul` returns for every name `x<n>` and `y<n>` of
the text. -/
theorem setExpr_returns (C : CompilerOps) (f : Function) (text : String)
    (hx : ∀ x ∈ (C.findXsYs (C.trim text)).1, ∃ i, stoulIndex x = Except.ok i)
    (hy : ∀ y ∈ (C.findXsYs (C.trim text)).2, ∃ i, stoulIndex y = Except.ok i) :
    ∃ g, f.setExpr C text = Except.ok g := by
  by_cases he : (C.trim text).isEmpty = true
  · exact ⟨f, by simp [Function.setExpr, he]⟩
  by_cases hs : (f.valid_ && C.trim text == f.parser_.GetExpr) = true
  · exact ⟨f, by simp only [Function.setExpr, he, hs]; simp⟩
  obtain ⟨g, r, hin⟩ := innerSetExpr_returns C f (C.trim text) hx hy
  exact ⟨_, setExpr_run C f g text r (by simpa using he) (by simpa using hs) hin⟩

/-- A second call of `setExpr` with the same text, on the state the first call returned,
returns that state. -/
theorem setExpr_again (C : CompilerOps) (f g : Function) (text : String)
    (h : f.setExpr C text = Except.ok g) : g.setExpr C text = Except.ok g := by
  rcases setExpr_cases C f g text h with ⟨hg, _⟩ | ⟨he, hs, g1, r, hin, hg⟩
  · subst hg; exact h
  · obtain ⟨f4, hg1, hr, _, _, _, hX, hY, hT, hS, _⟩ :=
      innerSetExpr_run C f g1 (C.trim text) r hin
    subst hg1
    subst hg
    cases r with
    | ok =>
      simp [Function.setExpr, he, MooseParser.GetExpr]
    | failed =>
      have hagain := innerSetExpr_again C
        ({ f4 with parser_ := { f4.parser_ with expr_ := C.trim text }, valid_ := false } :
          Function) (C.trim text) hX hY hT hS rfl
      show Function.setExpr C
          ({ f4 with parser_ := { f4.parser_ with expr_ := C.trim text }, valid_ := false } :
            Function) text =
        Except.ok ({ f4 with parser_ := { f4.parser_ with expr_ := C.trim text },
                             valid_ := false } : Function)
      simp only [Function.setExpr, he, Bool.false_eq_true, if_false, Bool.false_and, hagain,
        ← hr]
    | thrown =>
      have hagain := innerSetExpr_again C
        ({ f4 with parser_ := { f4.parser_ with expr_ := C.trim text }, valid_ := false } :
          Function) (C.trim text) hX hY hT hS rfl
      show Function.setExpr C
          ({ f4 with parser_ := { f4.parser_ with expr_ := C.trim text }, valid_ := false } :
            Function) text =
        Except.ok ({ f4 with parser_ := { f4.parser_ with expr_ := C.trim text },
                             valid_ := false } : Function)
      simp only [Function.setExpr, he, Bool.false_eq_true, if_false, Bool.false_and, hagain,
        ← hr]

/-- The exception of `stoul` escapes `setExpr`: on a new `Function`, `setExpr` for the name
`x99999999999999999999`, whose index is above `ULONG_MAX`, does not return, while it
returns for `x18446744073709551615`. -/
theorem setExpr_index_out_of_range :
    (stoulIndex "x18446744073709551615").toOption = some 4294967295 ∧
    (stoulIndex "x99999999999999999999").toOption = none ∧
    (Function.new.setExpr sumCompiler "x99999999999999999999").toOption = none := by
  decide!

/-- C19: setting the same expression text twice in a row with `setExpr` changes nothing the
second time: whenever the first call returns a state, the second call on that state
returns the same state (the valid flag, the input slots, the pulled cells with their
values, the name→index table, the last value and every other field), whether the first
compile succeeded, failed or was not run. The first call returns when, for every name
`x<n>` and `y<n>` of the text, `stoul` returns (no number above `ULONG_MAX`) and the index
is below `UINT_MAX` (the counters of `addXByIndex` and `addY` do not wrap); when `stoul`
throws, the exception escapes `setExpr`. -/
theorem setExpr_twice (C : CompilerOps) (f : Function) (text : String) :
    (∀ g, f.setExpr C text = Except.ok g → g.setExpr C text = Except.ok g) ∧
    ((∀ x ∈ (C.findXsYs (C.trim text)).1 ++ (C.findXsYs (C.trim text)).2,
        ∃ i, stoulIndex x = Except.ok i ∧ i < UINT_MAX) →
      ∃ g, f.setExpr C text = Except.ok g ∧ g.setExpr C text = Except.ok g) := by
  refine ⟨fun g h => setExpr_again C f g text h, ?_⟩
  intro hp
  obtain ⟨g, hg⟩ := setExpr_returns C f text
    (fun x hx => (hp x (List.mem_append.mpr (Or.inl hx))).imp (fun _ h => h.1))
    (fun y hy => (hp y (List.mem_append.mpr (Or.inr hy))).imp (fun _ h => h.1))
  exact ⟨g, hg, setExpr_again C f g text hg⟩

/-- C19 at a concrete input: the text `"x0 +"`, which the parser rejects, set twice on a new
`Function`; the first call returns the state `failedX0` and so does the second. -/
theorem setExpr_twice_witness :
    Function.new.setExpr sumCompiler "x0 +" = Except.ok failedX0 ∧
    failedX0.setExpr sumCompiler "x0 +" = Except.ok failedX0 :=
  ⟨rfl, (setExpr_twice sumCompiler Function.new "x0 +").1 failedX0 rfl⟩

/-- C20 as stated fails: on a new `Function`, `setExpr("x0 +")` with a parser that rejects
the text leaves `valid` false, and also the input slot `x0`, its entry in the name→index
table and `numVar` = 1, where there was no slot, an empty table and `numVar` = 0. -/
theorem setExpr_failure_keeps_new_slots :
    (Function.new.setExpr sumCompiler "x0 +").toOption = some failedX0 ∧
    failedX0.valid_ = false ∧
    Function.new.xs_ = [] ∧ failedX0.xs_ = [{ name := "x0", value := 0 }] ∧
    Function.new.varIndex_ = [] ∧ failedX0.varIndex_ = [("x0", 0)] ∧
    Function.new.numVar_ = 0 ∧ failedX0.numVar_ = 1 := by
  decide

/-- C20, amended: when `setExpr` runs the compile step and the parser returns false or
throws, `valid` becomes false and nothing is rolled back: the state is the one
`innerSetExpr` built. The input slots held before are a prefix of the input slots after,
the pulled slots are at least as many, every name registered before is registered after,
and the slots of the names `x<n>` and `y<n>` found in the text are there (registered,
with a cell holding 0.0). -/
theorem setExpr_compile_failure (C : CompilerOps) (f g : Function) (text : String)
    (r : CompileResult) (he : (C.trim text).isEmpty = false)
    (hs : (f.valid_ && C.trim text == f.parser_.GetExpr) = false)
    (hin : f.innerSetExpr C (C.trim text) = Except.ok (g, r)) (hr : r ≠ CompileResult.ok) :
    f.setExpr C text = Except.ok { g with valid_ := false } ∧
    f.xs_ <+: g.xs_ ∧
    f.ys_.length ≤ g.ys_.length ∧
    (∀ m, f.symbolExists m = true → g.symbolExists m = true) ∧
    (∀ x ∈ (C.findXsYs (C.trim text)).1,
      ∃ i, stoulIndex x = Except.ok i ∧ g.symbolExists (xName i) = true) ∧
    (∀ y ∈ (C.findXsYs (C.trim text)).2,
      ∃ i, stoulIndex y = Except.ok i ∧ g.ys_[i]? = some (some 0)) := by
  obtain ⟨f4, hg, _, h1, h2, h3, hX, hY, _, _, _⟩ := innerSetExpr_run C f g (C.trim text) r hin
  refine ⟨?_, ?_, ?_, ?_, ?_, ?_⟩
  · simp only [Function.setExpr, he, hs, hin, Bool.false_eq_true, if_false]
    cases r with
    | ok => exact absurd rfl hr
    | failed => rfl
    | thrown => rfl
  · rw [hg]; exact h1
  · rw [hg]; exact h2
  · rw [hg]; exact h3
  · rw [hg]; exact hX
  · rw [hg]
    intro y hy
    obtain ⟨i, hi, hb, _⟩ := hY y hy
    exact ⟨i, hi, hb⟩

/-- C20, amended, at a concrete input: `setExpr("x0 +")` on a new `Function` with a parser
that throws on the text. -/
theorem setExpr_compile_failure_witness :
    Function.new.setExpr sumCompiler "x0 +" =
      Except.ok ({ failedX0Inner with valid_ := false } : Function) ∧
    Function.new.xs_ <+: failedX0Inner.xs_ ∧
    Function.new.ys_.length ≤ failedX0Inner.ys_.length ∧
    (∀ m, Function.new.symbolExists m = true → failedX0Inner.symbolExists m = true) ∧
    (∀ x ∈ (sumCompiler.findXsYs (sumCompiler.trim "x0 +")).1,
      ∃ i, stoulIndex x = Except.ok i ∧ failedX0Inner.symbolExists (xName i) = true) ∧
    (∀ y ∈ (sumCompiler.findXsYs (sumCompiler.trim "x0 +")).2,
      ∃ i, stoulIndex y = Except.ok i ∧ failedX0Inner.ys_[i]? = some (some 0)) :=
  setExpr_compile_failure sumCompiler Function.new failedX0Inner "x0 +" CompileResult.thrown
    (by decide) (by decide) (by rfl) (by decide)

/-! ## Strict mode -/

theorem digitChar_isDigit (d : Nat) (h : d < 10) : (Nat.digitChar d).isDigit = true := by
  interval_cases d <;> rfl

theorem toDigitsCore_digits :
    ∀ (fuel n : Nat) (ds : List Char), (∀ c ∈ ds, c.isDigit = true) →
      ∀ c ∈ Nat.toDigitsCore 10 fuel n ds, c.isDigit = true := by
  intro fuel
  induction fuel with
  | zero => intro n ds h c hc; exact h c (by simpa [Nat.toDigitsCore] using hc)
  | succ k ih =>
    intro n ds h c hc
    unfold Nat.toDigitsCore at hc
    have hd : ∀ c ∈ Nat.digitChar (n % 10) :: ds, c.isDigit = true := by
      intro c hc
      rcases List.mem_cons.mp hc with h1 | h1
      · rw [h1]; exact digitChar_isDigit _ (Nat.mod_lt _ (by omega))
      · exact h c h1
    by_cases h0 : n / 10 = 0
    · simp only [h0, if_true] at hc
      exact hd c hc
    · simp only [h0, if_false] at hc
      exact ih (n / 10) _ hd c hc

theorem toDigitsCore_ne_nil :
    ∀ (fuel n : Nat) (ds : List Char), (0 < fuel ∨ ds ≠ []) →
      Nat.toDigitsCore 10 fuel n ds ≠ [] := by
  intro fuel
  induction fuel with
  | zero =>
    intro n ds h
    rcases h with h | h
    · omega
    · simpa [Nat.toDigitsCore] using h
  | succ k ih =>
    intro n ds _
    unfold Nat.toDigitsCore
    by_cases h0 : n / 10 = 0
    · simp [h0]
    · simp only [h0, if_false]
      exact ih (n / 10) _ (Or.inr (by simp))

/-- The name `x{k}` has the form `x<n>`: the letter and one decimal digit or more. -/
theorem matchesIndexed_xName (k : Nat) : matchesIndexed 'x' (xName k) = true := by
  have hdata : (toString k).data = Nat.toDigitsCore 10 (k + 1) k [] := by
    show (Nat.repr k).data = _
    simp [Nat.repr, Nat.toDigits, List.asString]
  have hne := toDigitsCore_ne_nil (k + 1) k [] (Or.inl (by omega))
  have hall := toDigitsCore_digits (k + 1) k [] (by simp)
  rw [← hdata] at hne hall
  have hx : (xName k).data = 'x' :: (toString k).data := by
    simp [xName]
  unfold matchesIndexed
  rw [hx]
  cases hds : (toString k).data with
  | nil => exact absurd hds hne
  | cons d ds =>
    rw [hds] at hall
    simp only [Bool.and_eq_true, beq_self_eq_true, true_and, List.all_eq_true]
    exact hall

/-- The input slots after `addXByIndex`: those before, or those before followed by the
slots from the old length up to the index, each new and named `x{k}`. -/
theorem addXByIndex_xs (f : Function) (i : Nat) :
    (f.addXByIndex i).xs_ = f.xs_ ∨
    (f.addXByIndex i).xs_ =
      f.xs_ ++ (List.range' f.xs_.length (i + 1 - f.xs_.length)).map
        (fun k => Variable.new (xName k)) := by
  cases h : f.symbolExists (xName i) with
  | true => rw [addXByIndex_registered f i h]; exact Or.inl rfl
  | false =>
    by_cases hl : f.xs_.length ≤ i
    · exact Or.inr (addXByIndex_grow f i h hl).1
    · left
      simp [Function.addXByIndex, h, hl]

theorem addXByIndex_new_slots (f : Function) (i : Nat) :
    ∀ v ∈ (f.addXByIndex i).xs_, v ∈ f.xs_ ∨ ∃ k, v = Variable.new (xName k) := by
  intro v hv
  rcases addXByIndex_xs f i with h | h
  · rw [h] at hv; exact Or.inl hv
  · rw [h] at hv
    rcases List.mem_append.mp hv with h1 | h1
    · exact Or.inl h1
    · obtain ⟨k, _, hk⟩ := List.mem_map.mp h1
      exact Or.inr ⟨k, hk.symm⟩

theorem addXByIndex_table_other (f : Function) (i : Nat) (n : String) (hn : n ≠ xName i) :
    mapFind (f.addXByIndex i).varIndex_ n = mapFind f.varIndex_ n := by
  cases h : f.symbolExists (xName i) with
  | true => rw [addXByIndex_registered f i h]
  | false =>
    obtain ⟨xs, v, hf⟩ := addXByIndex_unregistered f i h
    rw [hf]
    exact mapFind_mapSet_ne _ _ _ _ hn

theorem addXs_new_slots (xs : List String) :
    ∀ (f g : Function), f.addXs xs = Except.ok g →
      ∀ v ∈ g.xs_, v ∈ f.xs_ ∨ ∃ k, v = Variable.new (xName k) := by
  induction xs with
  | nil =>
    intro f g hg v hv
    simp only [Function.addXs, Except.ok.injEq] at hg
    rw [← hg] at hv
    exact Or.inl hv
  | cons y xs ih =>
    intro f g hg v hv
    obtain ⟨i, _, hrest⟩ := addXs_cons f g y xs hg
    rcases ih (f.addXByIndex i) g hrest v hv with h | h
    · exact addXByIndex_new_slots f _ v h
    · exact Or.inr h

theorem addXs_table_other (xs : List String) :
    ∀ (f g : Function) (n : String), f.addXs xs = Except.ok g → (∀ k, n ≠ xName k) →
      mapFind g.varIndex_ n = mapFind f.varIndex_ n := by
  induction xs with
  | nil =>
    intro f g n hg _
    simp only [Function.addXs, Except.ok.injEq] at hg
    rw [← hg]
  | cons y xs ih =>
    intro f g n hg hn
    obtain ⟨i, _, hrest⟩ := addXs_cons f g y xs hg
    exact (ih (f.addXByIndex i) g n hrest hn).trans
      (addXByIndex_table_other f _ n (hn _))

/-- In strict mode `innerSetExpr` leaves the input slots and the table as the loop over
the names `x<n>` of the text built them. -/
theorem innerSetExpr_strict (C : CompilerOps) (f g : Function) (expr : String)
    (r : CompileResult) (ha : f.allowUnknownVar_ = false)
    (hin : f.innerSetExpr C expr = Except.ok (g, r)) :
    ∃ f1, f.addXs (C.findXsYs expr).1 = Except.ok f1 ∧
      g.xs_ = f1.xs_ ∧ g.varIndex_ = f1.varIndex_ := by
  obtain ⟨f1, f2, h1, h2⟩ := innerSetExpr_loops C f g expr r hin
  obtain ⟨hy1, hy2, _, hy4, _, _⟩ := addYs_frame (C.findXsYs expr).2 f1 f2 h2
  have hx4 := (addXs_flags (C.findXsYs expr).1 f f1 h1).1
  have ha2 : f2.allowUnknownVar_ = false := by rw [hy4, hx4, ha]
  unfold Function.innerSetExpr at hin
  simp only [h1, h2, addVariable_t, ha2, Bool.false_and, Bool.false_eq_true, if_false,
    Except.ok.injEq, Prod.mk.injEq] at hin
  obtain ⟨hg, _⟩ := hin
  rw [← hg]
  exact ⟨f1, h1, hy1, hy2⟩

/-- C21: in strict mode (`allowUnknownVariable` false), when `setExpr` runs the compile step
and the parser rejects the text, `valid` is false afterwards, every input slot is a slot
held before or a new slot named `x{k}`, and a name that is not of the form `x<n>` and was
not registered is not registered afterwards and has no new slot. -/
theorem setExpr_strict_rejected (C : CompilerOps) (f g : Function) (text name : String)
    (r : CompileResult) (ha : f.allowUnknownVar_ = false)
    (he : (C.trim text).isEmpty = false)
    (hs : (f.valid_ && C.trim text == f.parser_.GetExpr) = false)
    (hin : f.innerSetExpr C (C.trim text) = Except.ok (g, r)) (hr : r ≠ CompileResult.ok)
    (hname : matchesIndexed 'x' name = false) (hnew : f.symbolExists name = false) :
    f.setExpr C text = Except.ok { g with valid_ := false } ∧
    (∀ v ∈ g.xs_, v ∈ f.xs_ ∨ ∃ k, v = Variable.new (xName k)) ∧
    (∀ v ∈ g.xs_, v.name = name → v ∈ f.xs_) ∧
    g.symbolExists name = false := by
  obtain ⟨f1, h1, hxs, hvi⟩ := innerSetExpr_strict C f g (C.trim text) r ha hin
  have hne : ∀ k, name ≠ xName k := by
    intro k hk
    rw [hk, matchesIndexed_xName] at hname
    exact absurd hname (by simp)
  have hslots : ∀ v ∈ g.xs_, v ∈ f.xs_ ∨ ∃ k, v = Variable.new (xName k) := by
    rw [hxs]
    exact addXs_new_slots _ f f1 h1
  refine ⟨?_, hslots, ?_, ?_⟩
  · simp only [Function.setExpr, he, hs, hin, Bool.false_eq_true, if_false]
    cases r with
    | ok => exact absurd rfl hr
    | failed => rfl
    | thrown => rfl
  · intro v hv hvn
    rcases hslots v hv with h | ⟨k, hk⟩
    · exact h
    · rw [hk] at hvn
      exact absurd hvn.symm (hne k)
  · show (mapFind g.varIndex_ name).isSome = false
    rw [hvi, addXs_table_other _ f f1 name h1 hne]
    exact hnew

/-- C21 at a concrete input: `setExpr("x0 + foo")` in strict mode on a new `Function`: the
parser throws on `foo`; the only slot is `x0` and `foo` is not registered. -/
theorem setExpr_strict_rejected_witness :
    strictNew.setExpr sumCompiler "x0 + foo" =
      Except.ok ({ strictFooInner with valid_ := false } : Function) ∧
    (∀ v ∈ strictFooInner.xs_, v ∈ strictNew.xs_ ∨ ∃ k, v = Variable.new (xName k)) ∧
    (∀ v ∈ strictFooInner.xs_, v.name = "foo" → v ∈ strictNew.xs_) ∧
    strictFooInner.symbolExists "foo" = false :=
  setExpr_strict_rejected sumCompiler strictNew strictFooInner "x0 + foo" "foo"
    CompileResult.thrown (by decide) (by decide) (by decide) (by rfl) (by decide)
    (by decide) (by decide)

/-! ## The index `stoul` returns -/

theorem isDigit_toNat (c : Char) (h : c.isDigit = true) : 48 ≤ c.toNat ∧ c.toNat ≤ 57 := by
  simp only [Char.isDigit, Bool.and_eq_true, decide_eq_true_eq] at h
  exact ⟨h.1, h.2⟩

/-- What `stoul(name.substr(1))` gives for a name that is a letter followed by decimal
digits: the number the digits spell, reduced modulo `UINT_MAX + 1`, unless that number is
above `ULONG_MAX`, in which case `stoul` throws. -/
theorem stoulIndex_of_indexed (c : Char) (name : String) (h : matchesIndexed c name = true) :
    stoulIndex name =
      if decodeDigits (name.data.drop 1) > ULONG_MAX then Except.error "out_of_range: stoul"
      else Except.ok (decodeDigits (name.data.drop 1) % (UINT_MAX + 1)) := by
  unfold matchesIndexed at h
  cases hd : name.data with
  | nil => rw [hd] at h; simp at h
  | cons a l =>
    cases l with
    | nil => rw [hd] at h; simp at h
    | cons d ds =>
      rw [hd] at h
      simp only [Bool.and_eq_true] at h
      have hall : ∀ x ∈ d :: ds, x.isDigit = true := by
        intro x hx
        exact List.all_eq_true.mp h.2 x hx
      have hdig := isDigit_toNat d (hall d (by simp))
      have hsp : isSpaceChar d = false := by
        simp only [isSpaceChar, Bool.or_eq_false_iff, beq_eq_false_iff_ne, ne_eq,
          Bool.and_eq_false_imp, decide_eq_true_eq, decide_eq_false_iff_not]
        omega
      have hminus : (some d == some '-') = false := by
        have : d ≠ '-' := by
          intro hc
          rw [hc] at hdig
          exact absurd hdig (by decide)
        simpa using this
      have hplus : (some d == some '+') = false := by
        have : d ≠ '+' := by
          intro hc
          rw [hc] at hdig
          exact absurd hdig (by decide)
        simpa using this
      have htw : (d :: ds).takeWhile Char.isDigit = d :: ds :=
        List.takeWhile_eq_self_iff.mpr hall
      simp only [stoulIndex, hd, List.isEmpty_cons, Bool.false_eq_true, if_false, List.drop_succ_cons,
        List.drop_zero, stoul, List.dropWhile_cons, hsp, List.head?_cons, hminus, hplus,
        Bool.or_self, htw]
      by_cases hgt : decodeDigits (d :: ds) > ULONG_MAX
      · simp [hgt]
      · simp [hgt]

/-- For the name `x{k}` the index is `k` itself when `k` fits an `unsigned int`; it is `k`
reduced modulo `UINT_MAX + 1` up to `ULONG_MAX`, and above `ULONG_MAX` `stoul` throws. -/
theorem stoulIndex_xName (k : Nat) :
    stoulIndex (xName k) =
      if k > ULONG_MAX then Except.error "out_of_range: stoul"
      else Except.ok (k % (UINT_MAX + 1)) := by
  have hx : (xName k).data.drop 1 = (toString k).data := by
    simp [xName]
  rw [stoulIndex_of_indexed 'x' (xName k) (matchesIndexed_xName k), hx, decodeDigits_toString]

/-! ## The classifier -/

/-- What `getVarType` answers for a name that is a constant of the parser and has none of
the forms `x<n>`, `y<n>`, `c<n>`: a constant when unknown names are allowed; in strict mode
the time symbol for `t` and a named input for any other name. -/
theorem getVarType_of_constant (f : Function) (name : String)
    (hx : matchesIndexed 'x' name = false) (hy : matchesIndexed 'y' name = false)
    (hc : matchesIndexed 'c' name = false) (hk : f.parser_.IsConst name = true) :
    (f.allowUnknownVar_ = true → f.getVarType name = VarType.CONSTVAR) ∧
    (f.allowUnknownVar_ = false → name ≠ "t" → f.getVarType name = VarType.XVAR_NAMED) := by
  constructor
  · intro ha
    simp [Function.getVarType, hx, hy, hc, hk, ha]
  · intro ha ht
    simp [Function.getVarType, hx, hy, hc, ha, ht]

/-- C22, evaluated on the code: in strict mode, with the constant `A` registered in the
parser, `getVarType("A")` is the named-input kind; the same name is a constant when
unknown names are allowed. -/
theorem getVarType_strict_constant_is_named :
    strictWithA.allowUnknownVar_ = false ∧
    strictWithA.parser_.IsConst "A" = true ∧
    strictWithA.getVarType "A" = VarType.XVAR_NAMED ∧
    (({ strictWithA with allowUnknownVar_ := true } : Function)).getVarType "A" =
      VarType.CONSTVAR := by
  decide

/-- What `addVariable` does when it returns: one of its five branches, the two indexed ones
with the index `stoul` returned. -/
theorem addVariable_cases (f g : Function) (name : String)
    (h : f.addVariable name = Except.ok g) :
    (∃ i, stoulIndex name = Except.ok i ∧ g = f.addXByIndex i) ∨
    (matchesIndexed 'x' name = false ∧ g = f.addXByName name) ∨
    (∃ i, stoulIndex name = Except.ok i ∧ g = f.addY i) ∨
    g = ({ f with parser_ := f.parser_.DefineVar "t" CellRef.t } : Function) ∨
    g = f := by
  unfold Function.addVariable at h
  cases hk : f.getVarType name with
  | XVAR_INDEX =>
    simp only [hk, if_true] at h
    cases hi : stoulIndex name with
    | error e => rw [hi] at h; exact absurd h (by simp)
    | ok i =>
      rw [hi] at h
      simp only [Except.ok.injEq] at h
      exact Or.inl ⟨i, rfl, h.symm⟩
  | XVAR_NAMED =>
    simp [hk] at h
    refine Or.inr (Or.inl ⟨?_, h.symm⟩)
    cases hm : matchesIndexed 'x' name with
    | false => rfl
    | true => simp [Function.getVarType, hm] at hk
  | YVAR =>
    simp only [hk] at h
    simp only [reduceCtorEq, if_false, if_true] at h
    cases hi : stoulIndex name with
    | error e => rw [hi] at h; exact absurd h (by simp)
    | ok i =>
      rw [hi] at h
      simp only [Except.ok.injEq] at h
      exact Or.inr (Or.inr (Or.inl ⟨i, rfl, h.symm⟩))
  | TVAR =>
    simp [hk] at h
    exact Or.inr (Or.inr (Or.inr (Or.inl h.symm)))
  | CONSTVAR =>
    simp [hk] at h
    exact Or.inr (Or.inr (Or.inr (Or.inr h.symm)))

/-- The only exception that escapes `addVariable` is the one of `stoul`: `getVarType`
answers one of the five kinds and each has its branch, so the `runtime_error` at the end
of the member is never thrown. -/
theorem addVariable_error (f : Function) (name e : String)
    (h : f.addVariable name = Except.error e) : stoulIndex name = Except.error e := by
  unfold Function.addVariable at h
  cases hk : f.getVarType name with
  | XVAR_INDEX =>
    simp only [hk, if_true] at h
    cases hi : stoulIndex name with
    | error e2 => rw [hi] at h; simp only [Except.error.injEq] at h; rw [h]
    | ok i => rw [hi] at h; exact absurd h (by simp)
  | XVAR_NAMED => simp [hk] at h
  | YVAR =>
    simp only [hk] at h
    simp only [reduceCtorEq, if_false, if_true] at h
    cases hi : stoulIndex name with
    | error e2 => rw [hi] at h; simp only [Except.error.injEq] at h; rw [h]
    | ok i => rw [hi] at h; exact absurd h (by simp)
  | TVAR => simp [hk] at h
  | CONSTVAR => simp [hk] at h

/-- The member `addVariable` returns when `stoul` returns for the name, and for every name
that is neither of the form `x<n>` nor of the form `y<n>`. -/
theorem addVariable_returns (f : Function) (name : String)
    (h : (∃ i, stoulIndex name = Except.ok i) ∨
      (matchesIndexed 'x' name = false ∧ matchesIndexed 'y' name = false)) :
    ∃ g, f.addVariable name = Except.ok g := by
  cases hr : f.addVariable name with
  | ok g => exact ⟨g, rfl⟩
  | error e =>
    have he := addVariable_error f name e hr
    rcases h with ⟨i, hi⟩ | ⟨hx, hy⟩
    · rw [hi] at he
      exact absurd he (by simp)
    · have hk : f.getVarType name ≠ VarType.XVAR_INDEX ∧
          f.getVarType name ≠ VarType.YVAR := by
        simp only [Function.getVarType, hx, hy, Bool.false_eq_true, if_false]
        split_ifs <;> simp
      unfold Function.addVariable at hr
      cases hk2 : f.getVarType name <;> simp [hk2] at hr hk

/-- C23, evaluated on the code: in strict mode `getVarType("foo")` is the named-input kind,
and `addVariable("foo")` does not throw: it appends the input slot `foo` and registers
the name. -/
theorem addVariable_strict_unknown_adds_slot :
    strictNew.allowUnknownVar_ = false ∧
    strictNew.getVarType "foo" = VarType.XVAR_NAMED ∧
    (strictNew.addVariable "foo").toOption = some (strictNew.addXByName "foo") ∧
    (strictNew.addXByName "foo").xs_ = [{ name := "foo", value := 0 }] ∧
    (strictNew.addXByName "foo").symbolExists "foo" = true := by
  decide

/-! ## The independent variable -/

/-- C24, evaluated on the code: on a new `Function`, after `setExpr("x0 + x1")` has bound
the inputs `x0` and `x1`, `getIndependent` still answers `t`, the value the constructor
gave, and not the name `x0` of the first input slot. -/
theorem getIndependent_after_setExpr :
    (Function.new.setExpr sumCompiler "x0 + x1").toOption = some sumX0X1 ∧
    sumX0X1.valid_ = true ∧
    sumX0X1.xs_.map Variable.name = ["x0", "x1"] ∧
    Function.new.getIndependent = "t" ∧
    sumX0X1.getIndependent = "t" := by
  decide!

/-! ## The count of variables and the cells of the pulled slots -/

/-- C26, evaluated on the code: after `addXByIndex(0)` and `addXByIndex(2)` there are three
input slots and `getNumVar` answers 2, so the slot of index 2 is not below the count. -/
theorem getNumVar_below_slot_count :
    afterX0X2.xs_.map Variable.name = ["x0", "x1", "x2"] ∧
    afterX0X2.xs_.length = 3 ∧
    afterX0X2.getNumVar = 2 ∧
    afterX0X2.varIndex_ = [("x0", 0), ("x2", 2)] := by
  decide

/-- C28, evaluated on the code: after `addY(2)` on a new `Function` there are three pulled
slots of which only the last owns a cell; `getY` reads through a null pointer, and so does
the copy loop of `process` when the pull response is not empty. -/
theorem addY_leaves_null_cells :
    (Function.new.addY 2).ys_ = [none, none, some 0] ∧
    (Function.new.addY 2).getY = none ∧
    pulledY2.valid_ = true ∧
    pulledY2.process symbolParser 0 1 [1] = none := by
  decide

/-! ## Input slots are only appended -/

theorem process_invalid_run (P : ParserOps) (f : Function) (currTime dt : ℚ)
    (databuf : List ℚ) (h : f.valid_ = false) :
    f.process P currTime dt databuf = some (f, []) := by
  simp [Function.process, h]


theorem modify_names (xs : List Variable) (value : ℚ) :
    ∀ (i : Nat), (xs.modify (fun v => v.setValue value) i).map Variable.name =
      xs.map Variable.name := by
  induction xs with
  | nil => intro i; cases i <;> rfl
  | cons x xs ih =>
    intro i
    cases i with
    | zero => rfl
    | succ j =>
      show x.name :: (xs.modify (fun v => v.setValue value) j).map Variable.name =
        x.name :: xs.map Variable.name
      rw [ih j]

theorem addXByName_xs_kept (f : Function) (name : String) :
    f.xs_ <+: (f.addXByName name).xs_ := by
  cases h : f.symbolExists name with
  | true => simp [Function.addXByName, h]
  | false => simp [Function.addXByName, h]

theorem addVariable_xs_kept (f g : Function) (name : String)
    (h : f.addVariable name = Except.ok g) : f.xs_ <+: g.xs_ := by
  rcases addVariable_cases f g name h with ⟨i, _, hg⟩ | ⟨_, hg⟩ | ⟨i, _, hg⟩ | hg | hg
  · rw [hg]; exact addXByIndex_xs_kept f _
  · rw [hg]; exact addXByName_xs_kept f name
  · rw [hg, (addY_cells f _).2.2.2.1]
  · rw [hg]
  · rw [hg]

theorem process_xs (P : ParserOps) (f g : Function) (currTime dt : ℚ) (databuf : List ℚ)
    (calls : List Call) (h : f.process P currTime dt databuf = some (g, calls)) :
    g.xs_ = f.xs_ := by
  cases hv : f.valid_ with
  | false =>
    rw [process_invalid_run P f currTime dt databuf hv] at h
    simp only [Option.some.injEq, Prod.mk.injEq] at h
    rw [← h.1]
  | true =>
    rw [process_valid P f currTime dt databuf hv] at h
    simp only [Option.map_eq_some', Prod.mk.injEq] at h
    obtain ⟨ys, _, hg, _⟩ := h
    rw [← hg]

theorem reinit_xs (P : ParserOps) (f : Function) (currTime : ℚ) :
    (f.reinit P currTime).1.xs_ = f.xs_ := by
  by_cases h : (f.valid_ || f.parser_.GetExpr.isEmpty) = true
  · rw [reinit_run P f currTime h]
  · simp [Function.reinit, h]

/-- When `setExpr` returns, the input slots held before are the first input slots
afterwards. -/
theorem setExpr_xs_kept (C : CompilerOps) (f g : Function) (text : String)
    (h : f.setExpr C text = Except.ok g) : f.xs_ <+: g.xs_ := by
  rcases setExpr_cases C f g text h with ⟨hg, _⟩ | ⟨_, _, g1, r, hin, hg⟩
  · rw [hg]
  · obtain ⟨f4, hg1, _, hkept, _⟩ := innerSetExpr_run C f g1 (C.trim text) r hin
    rw [hg, hg1]
    exact hkept

/-- C27: each of `addXByIndex`, `addXByName`, `addY`, `addVariable`, `setVar`, `process`,
`reinit` and `setExpr` leaves the names of the input slots held before the call as the
first names, in the same order, of the input slots held after it, for every call that
returns. The members `addVariable` and `setExpr` return when, for the names `x<n>` and
`y<n>` they read, `stoul` returns (no number above `ULONG_MAX`) and the index is below
`UINT_MAX` (the counters of `addXByIndex` and `addY` do not wrap); when `stoul` throws,
the exception escapes both. -/
theorem input_slots_append_only (P : ParserOps) (C : CompilerOps) (f : Function) :
    (∀ i, f.xs_.map Variable.name <+: (f.addXByIndex i).xs_.map Variable.name) ∧
    (∀ n, f.xs_.map Variable.name <+: (f.addXByName n).xs_.map Variable.name) ∧
    (∀ i, f.xs_.map Variable.name <+: (f.addY i).xs_.map Variable.name) ∧
    (∀ n g, f.addVariable n = Except.ok g →
      f.xs_.map Variable.name <+: g.xs_.map Variable.name) ∧
    (∀ i v, f.xs_.map Variable.name <+: (f.setVar i v).xs_.map Variable.name) ∧
    (∀ currTime dt databuf g calls, f.process P currTime dt databuf = some (g, calls) →
      f.xs_.map Variable.name <+: g.xs_.map Variable.name) ∧
    (∀ currTime, f.xs_.map Variable.name <+: (f.reinit P currTime).1.xs_.map Variable.name) ∧
    (∀ text g, f.setExpr C text = Except.ok g →
      f.xs_.map Variable.name <+: g.xs_.map Variable.name) ∧
    (∀ n, ((∃ i, stoulIndex n = Except.ok i ∧ i < UINT_MAX) ∨
        (matchesIndexed 'x' n = false ∧ matchesIndexed 'y' n = false)) →
      ∃ g, f.addVariable n = Except.ok g) ∧
    (∀ text, (∀ x ∈ (C.findXsYs (C.trim text)).1 ++ (C.findXsYs (C.trim text)).2,
        ∃ i, stoulIndex x = Except.ok i ∧ i < UINT_MAX) →
      ∃ g, f.setExpr C text = Except.ok g) := by
  refine ⟨?_, ?_, ?_, ?_, ?_, ?_, ?_, ?_, ?_, ?_⟩
  · exact fun i => (addXByIndex_xs_kept f i).map Variable.name
  · exact fun n => (addXByName_xs_kept f n).map Variable.name
  · intro i
    rw [(addY_cells f i).2.2.2.1]
  · exact fun n g hg => (addVariable_xs_kept f g n hg).map Variable.name
  · intro i v
    by_cases h : i < f.xs_.length
    · simp only [Function.setVar, h, if_true]
      rw [modify_names]
    · simp [Function.setVar, h]
  · intro currTime dt databuf g calls h
    rw [process_xs P f g currTime dt databuf calls h]
  · intro currTime
    rw [reinit_xs]
  · exact fun text g hg => (setExpr_xs_kept C f g text hg).map Variable.name
  · exact fun n h => addVariable_returns f n (h.imp (fun hi => hi.imp (fun _ h => h.1)) id)
  · intro text hp
    exact setExpr_returns C f text
      (fun x hx => (hp x (List.mem_append.mpr (Or.inl hx))).imp (fun _ h => h.1))
      (fun y hy => (hp y (List.mem_append.mpr (Or.inr hy))).imp (fun _ h => h.1))

/-! ## Assignment -/

/-- C29: assignment does not copy the independent variable. The source holds `"x0 + x1"` with
the independent variable set to `x0`; after the assignment to a new `Function` the target
answers `t`, the value its constructor gave it, while `getMode`, `getUseTrigger`,
`getDoEvalAtReinit`, `getAllowUnknowVariable`, `getNumVar`, `getValue` and `getRate` answer
as on the source. -/
theorem assign_keeps_target_independent :
    sumX0X1Independent.parser_.GetExpr = "x0 + x1" ∧
    sumX0X1Independent.getIndependent = "x0" ∧
    (Function.new.assign sumCompiler sumX0X1Independent false).toOption.map
        Function.getIndependent = some "t" ∧
    (Function.new.assign sumCompiler sumX0X1Independent false).toOption.map Function.getMode =
      some sumX0X1Independent.getMode ∧
    (Function.new.assign sumCompiler sumX0X1Independent false).toOption.map
        Function.getUseTrigger = some sumX0X1Independent.getUseTrigger ∧
    (Function.new.assign sumCompiler sumX0X1Independent false).toOption.map
        Function.getDoEvalAtReinit = some sumX0X1Independent.getDoEvalAtReinit ∧
    (Function.new.assign sumCompiler sumX0X1Independent false).toOption.map
        Function.getAllowUnknowVariable = some sumX0X1Independent.getAllowUnknowVariable ∧
    (Function.new.assign sumCompiler sumX0X1Independent false).toOption.map
        Function.getNumVar = some sumX0X1Independent.getNumVar ∧
    (Function.new.assign sumCompiler sumX0X1Independent false).toOption.map
        Function.getValue = some sumX0X1Independent.getValue ∧
    (Function.new.assign sumCompiler sumX0X1Independent false).toOption.map
        Function.getRate = some sumX0X1Independent.getRate := by
  decide!

/-! ## The dependency table of HHChannel2D -/

/-- The two results of `dependency` for a name: the pair for each of the six names of the
table, and (-1, -1) for every other string. -/
theorem dependency_values (index : String) :
    (index = "VOLT_INDEX" ∧ HHChannel2D.dependency index 0 = some 0 ∧
      HHChannel2D.dependency index 1 = some (-1)) ∨
    (index = "C1_INDEX" ∧ HHChannel2D.dependency index 0 = some 1 ∧
      HHChannel2D.dependency index 1 = some (-1)) ∨
    (index = "C2_INDEX" ∧ HHChannel2D.dependency index 0 = some 2 ∧
      HHChannel2D.dependency index 1 = some (-1)) ∨
    (index = "VOLT_C1_INDEX" ∧ HHChannel2D.dependency index 0 = some 0 ∧
      HHChannel2D.dependency index 1 = some 1) ∨
    (index = "VOLT_C2_INDEX" ∧ HHChannel2D.dependency index 0 = some 0 ∧
      HHChannel2D.dependency index 1 = some 2) ∨
    (index = "C1_C2_INDEX" ∧ HHChannel2D.dependency index 0 = some 1 ∧
      HHChannel2D.dependency index 1 = some 2) ∨
    (index ∉ ["VOLT_INDEX", "C1_INDEX", "C2_INDEX", "VOLT_C1_INDEX", "VOLT_C2_INDEX",
        "C1_C2_INDEX"] ∧
      HHChannel2D.dependency index 0 = some (-1) ∧
      HHChannel2D.dependency index 1 = some (-1)) := by
  by_cases h1 : "VOLT_INDEX" = index
  · subst h1; exact Or.inl ⟨rfl, by decide, by decide⟩
  by_cases h2 : "C1_INDEX" = index
  · subst h2; exact Or.inr (Or.inl ⟨rfl, by decide, by decide⟩)
  by_cases h3 : "C2_INDEX" = index
  · subst h3; exact Or.inr (Or.inr (Or.inl ⟨rfl, by decide, by decide⟩))
  by_cases h4 : "VOLT_C1_INDEX" = index
  · subst h4; exact Or.inr (Or.inr (Or.inr (Or.inl ⟨rfl, by decide, by decide⟩)))
  by_cases h5 : "VOLT_C2_INDEX" = index
  · subst h5; exact Or.inr (Or.inr (Or.inr (Or.inr (Or.inl ⟨rfl, by decide, by decide⟩))))
  by_cases h6 : "C1_C2_INDEX" = index
  · subst h6
    exact Or.inr (Or.inr (Or.inr (Or.inr (Or.inr (Or.inl ⟨rfl, by decide, by decide⟩)))))
  refine Or.inr (Or.inr (Or.inr (Or.inr (Or.inr (Or.inr ⟨?_, ?_, ?_⟩)))))
  · simp only [List.mem_cons, List.mem_singleton, List.not_mem_nil, or_false, not_or]
    exact ⟨fun h => h1 h.symm, fun h => h2 h.symm, fun h => h3 h.symm, fun h => h4 h.symm,
      fun h => h5 h.symm, fun h => h6 h.symm⟩
  · simp [HHChannel2D.dependency, HHChannel2D.dep, mapFind, h1, h2, h3, h4, h5, h6]
  · simp [HHChannel2D.dependency, HHChannel2D.dep, mapFind, h1, h2, h3, h4, h5, h6]

theorem setXindex_isSome (c : HHChannel2D) (index : String) (v w : Int)
    (h0 : HHChannel2D.dependency index 0 = some v)
    (h1 : HHChannel2D.dependency index 1 = some w) :
    ((c.setXindex index).isSome ↔ index = c.Xindex_ ∨ 0 ≤ v) := by
  unfold HHChannel2D.setXindex
  by_cases h : index = c.Xindex_
  · simp [h]
  · by_cases hv : 0 ≤ v <;> simp [h, h0, h1, hv]

theorem setYindex_isSome (c : HHChannel2D) (index : String) (v w : Int)
    (h0 : HHChannel2D.dependency index 0 = some v)
    (h1 : HHChannel2D.dependency index 1 = some w) :
    ((c.setYindex index).isSome ↔ index = c.Yindex_ ∨ 0 ≤ v) := by
  unfold HHChannel2D.setYindex
  by_cases h : index = c.Yindex_
  · simp [h]
  · by_cases hv : 0 ≤ v <;> simp [h, h0, h1, hv]

theorem setZindex_isSome (c : HHChannel2D) (index : String) (v w : Int)
    (h0 : HHChannel2D.dependency index 0 = some v)
    (h1 : HHChannel2D.dependency index 1 = some w) :
    ((c.setZindex index).isSome ↔ index = c.Zindex_ ∨ 0 ≤ v) := by
  unfold HHChannel2D.setZindex
  by_cases h : index = c.Zindex_
  · simp [h]
  · by_cases hv : 0 ≤ v <;> simp [h, h0, h1, hv]

/-- C30: for every string `index`, `dependency(index, 0)` and `dependency(index, 1)` return
a value among -1, 0, 1, 2; the result for dimension 0 is non-negative exactly when `index`
is one of the six names of the table; the result for dimension 1 is non-negative exactly
for the three two-variable names, and then differs from the result for dimension 0; and
each of `setXindex`, `setYindex`, `setZindex` passes its assertion exactly when the string
equals the current one or is one of the six names. -/
theorem dependency_range (index : String) (c : HHChannel2D) :
    ∃ v w, HHChannel2D.dependency index 0 = some v ∧ HHChannel2D.dependency index 1 = some w ∧
      v ∈ [-1, 0, 1, 2] ∧ w ∈ [-1, 0, 1, 2] ∧
      (0 ≤ v ↔ index ∈ ["VOLT_INDEX", "C1_INDEX", "C2_INDEX", "VOLT_C1_INDEX",
        "VOLT_C2_INDEX", "C1_C2_INDEX"]) ∧
      (0 ≤ w ↔ index ∈ ["VOLT_C1_INDEX", "VOLT_C2_INDEX", "C1_C2_INDEX"]) ∧
      (0 ≤ w → w ≠ v) ∧
      ((c.setXindex index).isSome ↔ index = c.Xindex_ ∨
        index ∈ ["VOLT_INDEX", "C1_INDEX", "C2_INDEX", "VOLT_C1_INDEX", "VOLT_C2_INDEX",
          "C1_C2_INDEX"]) ∧
      ((c.setYindex index).isSome ↔ index = c.Yindex_ ∨
        index ∈ ["VOLT_INDEX", "C1_INDEX", "C2_INDEX", "VOLT_C1_INDEX", "VOLT_C2_INDEX",
          "C1_C2_INDEX"]) ∧
      ((c.setZindex index).isSome ↔ index = c.Zindex_ ∨
        index ∈ ["VOLT_INDEX", "C1_INDEX", "C2_INDEX", "VOLT_C1_INDEX", "VOLT_C2_INDEX",
          "C1_C2_INDEX"]) := by
  have key : ∀ v w, HHChannel2D.dependency index 0 = some v →
      HHChannel2D.dependency index 1 = some w →
      (0 ≤ v ↔ index ∈ ["VOLT_INDEX", "C1_INDEX", "C2_INDEX", "VOLT_C1_INDEX",
        "VOLT_C2_INDEX", "C1_C2_INDEX"]) →
      (((c.setXindex index).isSome ↔ index = c.Xindex_ ∨
        index ∈ ["VOLT_INDEX", "C1_INDEX", "C2_INDEX", "VOLT_C1_INDEX", "VOLT_C2_INDEX",
          "C1_C2_INDEX"]) ∧
      ((c.setYindex index).isSome ↔ index = c.Yindex_ ∨
        index ∈ ["VOLT_INDEX", "C1_INDEX", "C2_INDEX", "VOLT_C1_INDEX", "VOLT_C2_INDEX",
          "C1_C2_INDEX"]) ∧
      ((c.setZindex index).isSome ↔ index = c.Zindex_ ∨
        index ∈ ["VOLT_INDEX", "C1_INDEX", "C2_INDEX", "VOLT_C1_INDEX", "VOLT_C2_INDEX",
          "C1_C2_INDEX"])) := by
    intro v w h0 h1 hv
    rw [setXindex_isSome c index v w h0 h1, setYindex_isSome c index v w h0 h1,
      setZindex_isSome c index v w h0 h1, hv]
    exact ⟨Iff.rfl, Iff.rfl, Iff.rfl⟩
  rcases dependency_values index with h | h | h | h | h | h | h
  · obtain ⟨hi, h0, h1⟩ := h
    have hv : (0 ≤ (0 : Int) ↔ index ∈ ["VOLT_INDEX", "C1_INDEX", "C2_INDEX",
        "VOLT_C1_INDEX", "VOLT_C2_INDEX", "C1_C2_INDEX"]) := by subst hi; decide
    refine ⟨_, _, h0, h1, by decide, by decide, hv, ?_, by decide, key _ _ h0 h1 hv⟩
    subst hi; decide
  · obtain ⟨hi, h0, h1⟩ := h
    have hv : (0 ≤ (1 : Int) ↔ index ∈ ["VOLT_INDEX", "C1_INDEX", "C2_INDEX",
        "VOLT_C1_INDEX", "VOLT_C2_INDEX", "C1_C2_INDEX"]) := by subst hi; decide
    refine ⟨_, _, h0, h1, by decide, by decide, hv, ?_, by decide, key _ _ h0 h1 hv⟩
    subst hi; decide
  · obtain ⟨hi, h0, h1⟩ := h
    have hv : (0 ≤ (2 : Int) ↔ index ∈ ["VOLT_INDEX", "C1_INDEX", "C2_INDEX",
        "VOLT_C1_INDEX", "VOLT_C2_INDEX", "C1_C2_INDEX"]) := by subst hi; decide
    refine ⟨_, _, h0, h1, by decide, by decide, hv, ?_, by decide, key _ _ h0 h1 hv⟩
    subst hi; decide
  · obtain ⟨hi, h0, h1⟩ := h
    have hv : (0 ≤ (0 : Int) ↔ index ∈ ["VOLT_INDEX", "C1_INDEX", "C2_INDEX",
        "VOLT_C1_INDEX", "VOLT_C2_INDEX", "C1_C2_INDEX"]) := by subst hi; decide
    refine ⟨_, _, h0, h1, by decide, by decide, hv, ?_, by decide, key _ _ h0 h1 hv⟩
    subst hi; decide
  · obtain ⟨hi, h0, h1⟩ := h
    have hv : (0 ≤ (0 : Int) ↔ index ∈ ["VOLT_INDEX", "C1_INDEX", "C2_INDEX",
        "VOLT_C1_INDEX", "VOLT_C2_INDEX", "C1_C2_INDEX"]) := by subst hi; decide
    refine ⟨_, _, h0, h1, by decide, by decide, hv, ?_, by decide, key _ _ h0 h1 hv⟩
    subst hi; decide
  · obtain ⟨hi, h0, h1⟩ := h
    have hv : (0 ≤ (1 : Int) ↔ index ∈ ["VOLT_INDEX", "C1_INDEX", "C2_INDEX",
        "VOLT_C1_INDEX", "VOLT_C2_INDEX", "C1_C2_INDEX"]) := by subst hi; decide
    refine ⟨_, _, h0, h1, by decide, by decide, hv, ?_, by decide, key _ _ h0 h1 hv⟩
    subst hi; decide
  · obtain ⟨hi, h0, h1⟩ := h
    have hv : (0 ≤ (-1 : Int) ↔ index ∈ ["VOLT_INDEX", "C1_INDEX", "C2_INDEX",
        "VOLT_C1_INDEX", "VOLT_C2_INDEX", "C1_C2_INDEX"]) := by
      constructor
      · intro h; exact absurd h (by decide)
      · intro h; exact absurd h hi
    refine ⟨_, _, h0, h1, by decide, by decide, hv, ?_, by decide, key _ _ h0 h1 hv⟩
    constructor
    · intro h; exact absurd h (by decide)
    · intro h
      exact absurd (List.mem_cons_of_mem _ (List.mem_cons_of_mem _ (List.mem_cons_of_mem _ h))) hi

/-! ## The names of the input slots are distinct -/

/-- Two input slots of different index have different names. -/
theorem xName_injective (i j : Nat) (h : xName i = xName j) : i = j := by
  apply toString_nat_injective
  have hdata := congrArg String.data h
  simp only [xName, String.data_append] at hdata
  exact String.ext (List.append_cancel_left hdata)

/-- The member `addXByIndex` keeps the three facts on which the distinctness of the slot
names rests: the names are pairwise distinct, a slot named `x{k}` is at position `k`, and a
slot of any other name is registered in the table. -/
theorem addXByIndex_slot_names (f : Function) (i : Nat)
    (h1 : (f.xs_.map Variable.name).Nodup)
    (h2 : ∀ (j : Nat) (x : Variable), f.xs_[j]? = some x → ∀ k, x.name = xName k → j = k)
    (h3 : ∀ x ∈ f.xs_, (∀ k, x.name ≠ xName k) → f.symbolExists x.name = true) :
    ((f.addXByIndex i).xs_.map Variable.name).Nodup ∧
    (∀ (j : Nat) (x : Variable), (f.addXByIndex i).xs_[j]? = some x →
      ∀ k, x.name = xName k → j = k) ∧
    (∀ x ∈ (f.addXByIndex i).xs_, (∀ k, x.name ≠ xName k) →
      (f.addXByIndex i).symbolExists x.name = true) := by
  rcases addXByIndex_xs f i with h | h
  · rw [h]
    exact ⟨h1, h2, fun x hx hk => addXByIndex_symbolExists_mono f i _ (h3 x hx hk)⟩
  · rw [h]
    refine ⟨?_, ?_, ?_⟩
    · rw [List.map_append, List.map_map]
      refine List.Nodup.append h1 ?_ ?_
      · refine List.Nodup.map ?_ (List.nodup_range' _ _)
        intro a b hab
        exact xName_injective a b hab
      · intro n hn1 hn2
        obtain ⟨x, hx, hxn⟩ := List.mem_map.mp hn1
        obtain ⟨k, hk, hkn⟩ := List.mem_map.mp hn2
        obtain ⟨j, hj⟩ := List.mem_iff_getElem?.mp hx
        have hjk := h2 j x hj k (by rw [hxn, ← hkn]; rfl)
        have hlt : j < f.xs_.length := by
          by_contra hc
          rw [List.getElem?_eq_none (by omega)] at hj
          exact absurd hj (by simp)
        have hge := (List.mem_range'_1.mp hk).1
        omega
    · intro j x hx k hk
      by_cases hlt : j < f.xs_.length
      · rw [List.getElem?_append_left hlt] at hx
        exact h2 j x hx k hk
      · rw [List.getElem?_append_right (by omega), List.getElem?_map] at hx
        cases hr : (List.range' f.xs_.length (i + 1 - f.xs_.length))[j - f.xs_.length]? with
        | none => rw [hr] at hx; simp at hx
        | some m =>
          rw [hr] at hx
          simp only [Option.map_some', Option.some.injEq] at hx
          have hm := List.getElem?_range' f.xs_.length 1
            (m := j - f.xs_.length) (n := i + 1 - f.xs_.length)
          by_cases hb : j - f.xs_.length < i + 1 - f.xs_.length
          · rw [hm hb, Option.some.injEq] at hr
            rw [← hx] at hk
            have := xName_injective _ _ hk
            omega
          · rw [List.getElem?_eq_none (by simp; omega)] at hr
            exact absurd hr (by simp)
    · intro x hx hk
      rcases List.mem_append.mp hx with hx1 | hx1
      · exact addXByIndex_symbolExists_mono f i _ (h3 x hx1 hk)
      · obtain ⟨k, _, hkn⟩ := List.mem_map.mp hx1
        exact absurd (by rw [← hkn]; rfl) (hk k)

/-- The member `addXByName` keeps the three facts when the name is not of the form
`x{k}`. -/
theorem addXByName_slot_names (f : Function) (name : String) (hn : ∀ k, name ≠ xName k)
    (h1 : (f.xs_.map Variable.name).Nodup)
    (h2 : ∀ (j : Nat) (x : Variable), f.xs_[j]? = some x → ∀ k, x.name = xName k → j = k)
    (h3 : ∀ x ∈ f.xs_, (∀ k, x.name ≠ xName k) → f.symbolExists x.name = true) :
    ((f.addXByName name).xs_.map Variable.name).Nodup ∧
    (∀ (j : Nat) (x : Variable), (f.addXByName name).xs_[j]? = some x →
      ∀ k, x.name = xName k → j = k) ∧
    (∀ x ∈ (f.addXByName name).xs_, (∀ k, x.name ≠ xName k) →
      (f.addXByName name).symbolExists x.name = true) := by
  cases hs : f.symbolExists name with
  | true =>
    have he : f.addXByName name = f := by simp [Function.addXByName, hs]
    rw [he]
    exact ⟨h1, h2, h3⟩
  | false =>
    have hxs : (f.addXByName name).xs_ = f.xs_ ++ [Variable.new name] := by
      simp [Function.addXByName, hs]
    have htab : (f.addXByName name).varIndex_ =
        mapSet f.varIndex_ name (f.xs_.length + 1 - 1) := by
      simp [Function.addXByName, hs]
    refine ⟨?_, ?_, ?_⟩
    · rw [hxs, List.map_append]
      refine List.Nodup.append h1 (by simp [Variable.new]) ?_
      intro n hn1 hn2
      obtain ⟨x, hx, hxn⟩ := List.mem_map.mp hn1
      simp only [List.map_cons, List.map_nil, List.mem_singleton, Variable.new] at hn2
      have hreg := h3 x hx (by rw [hxn, hn2]; exact hn)
      rw [hxn, hn2, hs] at hreg
      exact absurd hreg (by simp)
    · intro j x hx k hk
      rw [hxs] at hx
      by_cases hlt : j < f.xs_.length
      · rw [List.getElem?_append_left hlt] at hx
        exact h2 j x hx k hk
      · rw [List.getElem?_append_right (by omega)] at hx
        cases hj : j - f.xs_.length with
        | zero =>
          rw [hj] at hx
          simp only [List.getElem?_cons_zero, Option.some.injEq] at hx
          rw [← hx] at hk
          exact absurd hk (hn k)
        | succ m =>
          rw [hj] at hx
          simp at hx
    · intro x hx hk
      rw [hxs] at hx
      unfold Function.symbolExists
      rw [htab]
      rcases List.mem_append.mp hx with hx1 | hx1
      · exact mapFind_isSome_mapSet _ _ _ _ (h3 x hx1 hk)
      · simp only [List.mem_singleton] at hx1
        rw [hx1]
        simp [Variable.new, mapFind_mapSet_self]

/-- The slot names stay pairwise distinct along the calls of `addVariable`, the member
through which the names of an expression reach the store: the three facts hold on a new
`Function` and each call keeps them. -/
theorem addVariable_slot_names (f g : Function) (name : String)
    (h : f.addVariable name = Except.ok g)
    (h1 : (f.xs_.map Variable.name).Nodup)
    (h2 : ∀ (j : Nat) (x : Variable), f.xs_[j]? = some x → ∀ k, x.name = xName k → j = k)
    (h3 : ∀ x ∈ f.xs_, (∀ k, x.name ≠ xName k) → f.symbolExists x.name = true) :
    (g.xs_.map Variable.name).Nodup ∧
    (∀ (j : Nat) (x : Variable), g.xs_[j]? = some x → ∀ k, x.name = xName k → j = k) ∧
    (∀ x ∈ g.xs_, (∀ k, x.name ≠ xName k) → g.symbolExists x.name = true) := by
  rcases addVariable_cases f g name h with ⟨i, _, hg⟩ | ⟨hm, hg⟩ | ⟨i, _, hg⟩ | hg | hg
  · rw [hg]
    exact addXByIndex_slot_names f _ h1 h2 h3
  · rw [hg]
    refine addXByName_slot_names f name ?_ h1 h2 h3
    intro k hnk
    rw [hnk, matchesIndexed_xName] at hm
    exact absurd hm (by simp)
  · rw [hg]
    unfold Function.symbolExists
    rw [(addY_cells f _).2.2.2.1, (addY_cells f _).2.2.2.2.1]
    exact ⟨h1, h2, h3⟩
  · rw [hg]
    exact ⟨h1, h2, h3⟩
  · rw [hg]
    exact ⟨h1, h2, h3⟩

/-- A new `Function` has no input slot: the three facts hold on it. -/
theorem new_slot_names :
    (Function.new.xs_.map Variable.name).Nodup ∧
    (∀ (j : Nat) (x : Variable), Function.new.xs_[j]? = some x →
      ∀ k, x.name = xName k → j = k) ∧
    (∀ x ∈ Function.new.xs_, (∀ k, x.name ≠ xName k) →
      Function.new.symbolExists x.name = true) := by
  refine ⟨by simp [Function.new], ?_, ?_⟩
  · intro j x hx
    simp [Function.new] at hx
  · intro x hx
    simp [Function.new] at hx

/-! ## The count of variables is the size of the table -/

/-- When `addXByIndex` or `addXByName` registers a name, the count `getNumVar` is the
number of names in the table afterwards, whatever the number of slots. -/
theorem getNumVar_is_table_size (f : Function) :
    (∀ i, f.symbolExists (xName i) = false →
      (f.addXByIndex i).getNumVar = (f.addXByIndex i).varIndex_.length) ∧
    (∀ n, f.symbolExists n = false →
      (f.addXByName n).getNumVar = (f.addXByName n).varIndex_.length) := by
  constructor
  · intro i h
    obtain ⟨xs, v, hf⟩ := addXByIndex_unregistered f i h
    rw [hf]
    rfl
  · intro n h
    simp [Function.addXByName, h, Function.getNumVar]

/-! ## The cells that `addY` does not allocate -/

/-- When `addY(i)` grows the pulled slots, every new slot below `i` holds a null pointer. -/
theorem addY_gap_cells (f : Function) (i j : Nat) (h1 : f.ys_.length ≤ j) (h2 : j < i) :
    (f.addY i).ys_[j]? = some none := by
  have hi : i ≥ f.ys_.length := by omega
  simp only [Function.addY, hi, if_true, resizeYs]
  rw [List.getElem?_set_ne (by omega), List.getElem?_append_right h1]
  rw [List.getElem?_replicate]
  have : j - f.ys_.length < i + 1 - f.ys_.length := by omega
  simp [this]

end Moose
